import Mathlib

/-!
Verification of the comparison-network module (`sortingnetwork.py`).

The Python classes `Comparator` and `ComparisonNetwork` are shallowly
embedded: comparators are pairs of naturals, a network is its ordered
list of comparators, Python exceptions become `Except`/`Option`
results, and the verifier's explicit-stack search loops become
well-founded or fuel-based recursion.
-/

set_option maxHeartbeats 1000000

namespace SortingNetworkPy

/-- Decidable equality of `Except` results, for evaluating concrete parses. -/
instance {e a : Type} [DecidableEq e] [DecidableEq a] : DecidableEq (Except e a) := fun x y =>
  match x, y with
  | .error u, .error v =>
    if h : u = v then isTrue (congrArg Except.error h)
    else isFalse (fun hx => h (Except.error.inj hx))
  | .error _, .ok _ => isFalse (fun hx => Except.noConfusion hx)
  | .ok _, .error _ => isFalse (fun hx => Except.noConfusion hx)
  | .ok u, .ok v =>
    if h : u = v then isTrue (congrArg Except.ok h)
    else isFalse (fun hx => h (Except.ok.inj hx))

/-- `Comparator`: two input positions (`__init__` normalizes so `i1 < i2`). -/
structure Comparator where
  i1 : Nat
  i2 : Nat
deriving DecidableEq

namespace Comparator

/-- `Comparator.__init__`: raises when the inputs are equal, otherwise stores
the smaller position as `i1` and the larger one as `i2`. -/
def init (a b : Nat) : Except String Comparator :=
  if a = b then .error "Comparator inputs must be different"
  else if a < b then .ok ⟨a, b⟩
  else .ok ⟨b, a⟩

/-- ASCII whitespace stripped by Python's `str.strip`. -/
def pySpace (c : Char) : Bool :=
  c = ' ' || c = '\t' || c = '\n' || c = '\r' || c = '\x0b' || c = '\x0c'

/-- Python `str.strip`: drop whitespace from both ends. -/
def pyStrip (s : String) : String :=
  ⟨((s.data.dropWhile pySpace).reverse.dropWhile pySpace).reverse⟩

/-- Python `str.isnumeric` restricted to ASCII: nonempty and all decimal digits. -/
def pyIsNumeric (s : String) : Bool :=
  !s.data.isEmpty && s.data.all Char.isDigit

/-- Python `int` on a decimal-digit string. -/
def pyInt (s : String) : Nat :=
  s.data.foldl (fun n c => 10 * n + (c.toNat - 48)) 0

/-- Python `str.split(":")` on a character list: split at every colon, so
`"a::b"` gives three parts and the empty string gives one empty part. -/
def pySplitColon : List Char → List String
  | [] => [""]
  | c :: rest =>
    let r := pySplitColon rest
    if c = ':' then "" :: r
    else ⟨c :: (r.headD "").data⟩ :: r.tail

/-- `Comparator.from_string`: strip, split on `":"`, require exactly two
numeric parts, then construct (which normalizes the order). -/
def from_string (s : String) : Except String Comparator :=
  match pySplitColon (pyStrip s).data with
  | [a, b] =>
    if pyIsNumeric a && pyIsNumeric b then init (pyInt a) (pyInt b)
    else .error ("Invalid comparator string: " ++ s)
  | _ => .error ("Invalid comparator string: " ++ s)

/-- `Comparator.__str__`. -/
def str (c : Comparator) : String := toString c.i1 ++ ":" ++ toString c.i2

/-- `Comparator.overlaps`. -/
def overlaps (c other : Comparator) : Bool :=
  (c.i1 < other.i1 && other.i1 < c.i2) || (c.i1 < other.i2 && other.i2 < c.i2) ||
  (other.i1 < c.i1 && c.i1 < other.i2) || (other.i1 < c.i2 && c.i2 < other.i2)

/-- `Comparator.has_same_input`. -/
def has_same_input (c other : Comparator) : Bool :=
  c.i1 == other.i1 || c.i1 == other.i2 || c.i2 == other.i1 || c.i2 == other.i2

end Comparator

/-- The `ComparisonNetwork` state: its ordered list of comparators. -/
abbrev Network := List Comparator

/-- The fold inside `get_max_input` (after the emptiness check). -/
def pyMaxInputFold (cs : Network) : Nat :=
  cs.foldl (fun m c => if c.i2 > m then c.i2 else m) 0

/-- `ComparisonNetwork.get_max_input`: raises on an empty network. -/
def get_max_input (cs : Network) : Except String Nat :=
  if cs.length = 0 then .error "Comparison network is empty"
  else .ok (pyMaxInputFold cs)

/-- `ComparisonNetwork.sort_binary_sequence`: apply every comparator to the
integer's bits, in execution order. -/
def sort_binary_sequence (cs : Network) (sequence : Nat) : Nat :=
  cs.foldl (fun result c =>
    let pos0 := (result >>> c.i1) &&& 1
    let pos1 := (result >>> c.i2) &&& 1
    if pos0 > pos1 then result ^^^ ((1 <<< c.i1) ||| (1 <<< c.i2)) else result) sequence

/-- One compare-exchange of `sort_sequence`; `none` models Python's
`IndexError` when a comparator input is out of range. -/
def cexStep {α : Type} [LinearOrder α] (r : List α) (c : Comparator) : Option (List α) :=
  match r[c.i1]?, r[c.i2]? with
  | some x, some y => some (if x > y then (r.set c.i1 y).set c.i2 x else r)
  | _, _ => none

/-- `ComparisonNetwork.sort_sequence`: length check against
`get_max_input() + 1`, then compare-exchange every comparator in order. -/
def sort_sequence {α : Type} [LinearOrder α] (cs : Network) (sequence : List α) :
    Except String (List α) :=
  match get_max_input cs with
  | .error e => .error e
  | .ok mi =>
    if sequence.length ≠ mi + 1 then
      .error "Sequence length does not match number of inputs in the comparison network"
    else
      match cs.foldlM cexStep sequence with
      | some r => .ok r
      | none => .error "list index out of range"

/-- One pass of the depth-partition loop in `_get_optimized_comparators`:
iterate over a snapshot of `remaining`; a comparator is added to the current
depth (and removed by value from `remaining`) when it shares no input with any
comparator already considered in this pass.  Returns the current depth group
and the new `remaining`. -/
def scanRound : List Comparator → List Comparator → List Comparator →
    List Comparator × List Comparator
  | [], _, remaining => ([], remaining)
  | c :: rest, considered, remaining =>
    if considered.all (fun d => !c.has_same_input d) then
      let out := scanRound rest (considered ++ [c]) (remaining.erase c)
      (c :: out.1, out.2)
    else
      scanRound rest (considered ++ [c]) remaining

/-- The overlap counts computed at the start of
`_optimize_comparator_depth_group`: for each comparator, how many comparators
of the group it overlaps. -/
def overlapCount (group : List Comparator) (c : Comparator) : Nat :=
  (group.filter (fun other => c.overlaps other)).length

/-- Python `min` of a list of naturals (value only; default for empty). -/
def listMinD : List Nat → Nat
  | [] => 0
  | x :: xs => xs.foldl min x

/-- Python `max` of a list of naturals (value only; default for empty). -/
def listMaxD : List Nat → Nat
  | [] => 0
  | x :: xs => xs.foldl max x

/-- Python `min(l, key=key)`: the first element attaining the minimal key. -/
def pyMinBy (key : Comparator → Nat) : List Comparator → Option Comparator
  | [] => none
  | x :: xs =>
    match pyMinBy key xs with
    | none => some x
    | some y => if key y < key x then some y else some x

/-- The selection made by one iteration of the loop in
`_optimize_comparator_depth_group`: restrict to minimal overlap count, then
(on ties) to maximal input range, then take the first with minimal `i1`. -/
def pickNext (count : Comparator → Nat) (remaining : List Comparator) : Option Comparator :=
  let minCount := listMinD (remaining.map count)
  let minOverlap := remaining.filter (fun c => count c = minCount)
  let candidates :=
    if 1 < minOverlap.length then
      let maxRange := listMaxD (minOverlap.map (fun c => c.i2 - c.i1))
      minOverlap.filter (fun c => c.i2 - c.i1 = maxRange)
    else minOverlap
  pyMinBy (fun c => c.i1) candidates

/-- The selection loop of `_optimize_comparator_depth_group` (the overlap
counts are computed once, over the full group, and never recomputed).  The
loop runs while comparators remain; one fuel unit per removal is enough. -/
def optGroupLoop (count : Comparator → Nat) : Nat → List Comparator → List Comparator
  | 0, _ => []
  | fuel + 1, remaining =>
    match pickNext count remaining with
    | none => []
    | some c => c :: optGroupLoop count fuel (remaining.erase c)

/-- `ComparisonNetwork._optimize_comparator_depth_group`. -/
def optimize_depth_group (comparators : List Comparator) : List Comparator :=
  optGroupLoop (overlapCount comparators) comparators.length comparators

/-- The outer `while remaining` loop of `_get_optimized_comparators`; each
pass removes at least one comparator, so one fuel unit per comparator is
enough. -/
def getOptimizedLoop : Nat → List Comparator → List Comparator
  | 0, _ => []
  | fuel + 1, remaining =>
    match remaining with
    | [] => []
    | _ :: _ =>
      let round := scanRound remaining [] remaining
      optimize_depth_group round.1 ++ getOptimizedLoop fuel round.2

/-- `ComparisonNetwork._get_optimized_comparators`. -/
def get_optimized_comparators (cs : Network) : List Comparator :=
  getOptimizedLoop cs.length cs

/-- The rendering loop of `ComparisonNetwork.__str__`: emit the optimized
comparators, starting a new line whenever the next comparator shares an input
with the group collected on the current line. -/
def strLoop : List Comparator → String → List Comparator → String
  | [], result, group => result ++ String.intercalate "," (group.map Comparator.str)
  | c :: rest, result, group =>
    if group.any (fun other => c.has_same_input other) then
      strLoop rest (result ++ String.intercalate "," (group.map Comparator.str) ++ "\n") [c]
    else
      strLoop rest result (group ++ [c])

/-- `ComparisonNetwork.__str__`. -/
def network_str (cs : Network) : String :=
  strLoop (get_optimized_comparators cs) "" []

/-! ### The `is_sorting_network` branch-and-bound search

A branch of the search is `(i, p, z, o)`: the index of the next comparator,
the ternary state of each line (`0`, `1`, or `2` for unknown), the leading
non-zero position and the trailing non-one position. -/

/-- One branch of the verifier's depth-first search stack. -/
structure Branch where
  i : Nat
  p : List Nat
  z : Nat
  o : Nat

/-- Upward scan kernel for `findFirstNonZero`: `fuel` counts the positions
still to inspect. -/
def ffnzGo (p : List Nat) : Nat → Nat → Option Nat
  | 0, _ => none
  | fuel + 1, j => if p.getD j 0 ≠ 0 then some j else ffnzGo p fuel (j + 1)

/-- The scan `for j in range(z, o): if p[j] != 0: ...`: the first position in
`[z, o)` whose state is not `0`, if any. -/
def findFirstNonZero (p : List Nat) (z o : Nat) : Option Nat :=
  ffnzGo p (o - z) z

/-- Downward scan kernel for `findLastNonOne`. -/
def flnoGo (p : List Nat) : Nat → Nat → Option Nat
  | 0, _ => none
  | fuel + 1, j => if p.getD j 0 ≠ 1 then some j else flnoGo p fuel (j - 1)

/-- The scan `for j in range(o, z, -1): if p[j] != 1: ...`: the last position
in `(z, o]` whose state is not `1`, if any. -/
def findLastNonOne (p : List Nat) (o z : Nat) : Option Nat :=
  flnoGo p (o - z) o

/-- The inner `while i < m` loop of `is_sorting_network`, processing one
popped branch; `fuel` is the number of comparators left (`m - i`), so running
out of fuel is exactly reaching the end of the comparators with the branch
still unsorted (`return False`), modelled as `none`.  A `some acc2` result
models `break` out to the stack loop with the branch proven sorted, where
`acc2` accumulates the branches pushed along the way (most recent first). -/
def innerLoop (cmps : List (Nat × Nat)) : Nat → Nat → List Nat → Nat → Nat →
    List Branch → Option (List Branch)
  | 0, _, _, _, _, _ => none
  | fuel + 1, i, p, z, o, acc =>
    let ab := cmps.getD i (0, 0)
    let a := ab.1
    let b := ab.2
    if p.getD a 0 = 2 ∧ p.getD b 0 = 2 then
      -- branch: `(#,#)` becomes `(0,0)` (pushed) or `(#,1)` (continue)
      let q := (p.set a 0).set b 0
      let p' := p.set b 1
      let acc' :=
        match findFirstNonZero q z o with
        | some j => Branch.mk (i + 1) q j o :: acc
        | none => acc
      match findLastNonOne p' o z with
      | some j => innerLoop cmps fuel (i + 1) p' z j acc'
      | none => some acc'
    else if p.getD a 0 ≠ 0 ∧ p.getD b 0 ≠ 1 then
      -- swap: `(1,0)`, `(1,#)` or `(#,0)` becomes `(min,max)`
      let p' := (p.set a (p.getD b 0)).set b (p.getD a 0)
      match findFirstNonZero p' z o with
      | none => some acc
      | some z' =>
        match findLastNonOne p' o z' with
        | none => some acc
        | some o' => innerLoop cmps fuel (i + 1) p' z' o' acc
    else
      -- noop: `p[a] == 0 or p[b] == 1`
      innerLoop cmps fuel (i + 1) p z o acc

/-- The outer `while stack` loop of `is_sorting_network`, with enough fuel to
run to completion (`2 ^ n + 1` suffices, see the coverage lemmas). -/
def outerLoop (cmps : List (Nat × Nat)) : Nat → List Branch → Bool
  | 0, _ => false
  | _ + 1, [] => true
  | fuel + 1, br :: rest =>
    match innerLoop cmps (cmps.length - br.i) br.i br.p br.z br.o [] with
    | none => false
    | some pushed => outerLoop cmps fuel (pushed ++ rest)

/-- `ComparisonNetwork.is_sorting_network`. -/
def is_sorting_network (cs : Network) : Bool :=
  if cs.length = 0 then false
  else
    let n := pyMaxInputFold cs + 1
    let cmps := cs.map (fun c => (c.i1, c.i2))
    outerLoop cmps (2 ^ n + 1) [⟨0, List.replicate n 2, 0, n - 1⟩]

/-! ### Semantic layer: binary vectors and reference execution -/

/-- The low `n` bits of `s`, wire `0` (least significant bit) first. -/
def bitsList : Nat → Nat → List Nat
  | 0, _ => []
  | n + 1, s => s % 2 :: bitsList n (s / 2)

/-- Rebuild a natural number from its wire-indexed bit list. -/
def ofBits : List Nat → Nat
  | [] => 0
  | b :: v => b + 2 * ofBits v

/-- Reference compare-exchange on a vector of naturals. -/
def applyCmp (a b : Nat) (v : List Nat) : List Nat :=
  if v.getD b 0 < v.getD a 0 then (v.set a (v.getD b 0)).set b (v.getD a 0) else v

/-- Run a comparator list over a vector of naturals, in execution order. -/
def runList (cmps : List (Nat × Nat)) (v : List Nat) : List Nat :=
  cmps.foldl (fun w ab => applyCmp ab.1 ab.2 w) v

/-- The vector is non-decreasing. -/
def SortedL (v : List Nat) : Prop :=
  ∀ j k, j < k → k < v.length → v.getD j 0 ≤ v.getD k 0

/-- All entries are bits. -/
def IsBin (v : List Nat) : Prop := ∀ j, j < v.length → v.getD j 0 ≤ 1

/-- The low `n` bits of `x` form a non-decreasing pattern: every `1` bit sits
above every `0` bit. -/
def BinSorted (n x : Nat) : Prop :=
  ∀ k, k < n → ∀ j, j < k → x.testBit j = true → x.testBit k = true

instance decBinSorted (n x : Nat) : Decidable (BinSorted n x) :=
  inferInstanceAs (Decidable
    (∀ k, k < n → ∀ j, j < k → x.testBit j = true → x.testBit k = true))

/-- All comparators touch existing wires and go upward: this is the invariant
`Comparator.__init__` establishes, combined with `n = get_max_input() + 1`. -/
def WFNet (cs : Network) : Prop := ∀ c ∈ cs, c.i1 < c.i2

/-! ### Bit manipulation: xor with a power of two adds or removes that bit -/

/-- The compare-exchange on an integer's bits exactly as the spec phrases
it: read the bits at positions `lo` and `hi`; when bit `lo` is greater than
bit `hi` (so `1` against `0`), write the two bits back swapped, which clears
bit `lo` and sets bit `hi`. -/
def cexBitSpec (lo hi s : Nat) : Nat :=
  if s.testBit lo = true ∧ s.testBit hi = false then s + 2 ^ hi - 2 ^ lo else s

/-- The `ComparisonNetwork` object, for stating that method calls leave the
object (and their list arguments) unchanged. -/
structure ComparisonNetwork where
  comparators : List Comparator

/-- Calling `cn.sort_binary_sequence(s)`: the returned value together with
the state of the object after the call (no statement of the method assigns
to `self.comparators`). -/
def callSortBinary (net : ComparisonNetwork) (s : Nat) : Nat × ComparisonNetwork :=
  (sort_binary_sequence net.comparators s, ⟨net.comparators⟩)

/-- Calling `cn.sort_sequence(seq)`: the result, the object state after the
call, and the argument list after the call (the method copies the argument
with `list(sequence)` and mutates only the copy). -/
def callSortSequence {α : Type} [LinearOrder α] (net : ComparisonNetwork) (seq : List α) :
    Except String (List α) × ComparisonNetwork × List α :=
  (sort_sequence net.comparators seq, ⟨net.comparators⟩, seq)

/-- Calling `cn.is_sorting_network()`. -/
def callIsSortingNetwork (net : ComparisonNetwork) : Bool × ComparisonNetwork :=
  (is_sorting_network net.comparators, ⟨net.comparators⟩)

/-- Calling `cn._get_optimized_comparators()` (the scheduler copies the list
with `self.comparators.copy()` and mutates only the copy). -/
def callGetOptimized (net : ComparisonNetwork) : List Comparator × ComparisonNetwork :=
  (get_optimized_comparators net.comparators, ⟨net.comparators⟩)

/-- The body of the `sort_binary_sequence` loop for one comparator `(a, b)`. -/
def sbsStep (a b x : Nat) : Nat :=
  if (x >>> a) &&& 1 > (x >>> b) &&& 1 then x ^^^ ((1 <<< a) ||| (1 <<< b)) else x

/-- The binary vectors represented by a ternary state `p`: they agree with
`p` wherever `p` is determined and hold an arbitrary bit where `p` is `2`. -/
def Compl (p v : List Nat) : Prop :=
  v.length = p.length ∧ ∀ j, j < p.length →
    (p.getD j 0 = 2 → v.getD j 0 ≤ 1) ∧ (p.getD j 0 ≠ 2 → v.getD j 0 = p.getD j 0)

/-- Number of unknown (`2`) lines in a ternary state. -/
def count2 (p : List Nat) : Nat := (p.filter (fun x => x == 2)).length

/-- Termination measure of the search stack: each branch weighs
`2 ^` its number of unknowns. -/
def stackM (stack : List Branch) : Nat :=
  (stack.map (fun br => 2 ^ count2 br.p)).sum

/-- The invariants of every live branch of the search: the state has one
entry per wire with ternary values, everything left of `z` is settled to
zero and everything right of `o` to one, the window is nonempty and open at
both ends (`p[z]` is not zero, `p[o]` is not one), and the cursor is within
the comparator sequence. -/
structure BranchInv (cmps : List (Nat × Nat)) (n : Nat) (br : Branch) : Prop where
  hlen : br.p.length = n
  hvals : ∀ j, j < n → br.p.getD j 0 ≤ 2
  hzero : ∀ j, j < br.z → br.p.getD j 0 = 0
  hone : ∀ j, br.o < j → j < n → br.p.getD j 0 = 1
  hzo : br.z < br.o
  ho : br.o < n
  hlz : br.p.getD br.z 0 ≠ 0
  hlo : br.p.getD br.o 0 ≠ 1
  hi : br.i ≤ cmps.length

/-! ### Helper lemmas -/

theorem scanRound_snd_length_le (iter considered remaining : List Comparator) :
    (scanRound iter considered remaining).2.length ≤ remaining.length := by
  induction iter generalizing considered remaining with
  | nil => simp [scanRound]
  | cons c rest ih =>
    simp only [scanRound]
    split
    · exact le_trans (ih _ _) (List.length_erase_le _ _)
    · exact ih _ _

theorem scanRound_snd_length_lt (c : Comparator) (rest : List Comparator) :
    (scanRound (c :: rest) [] (c :: rest)).2.length < (c :: rest).length := by
  simp only [scanRound, List.all_nil, if_pos rfl, List.erase_cons_head]
  exact Nat.lt_succ_of_le (scanRound_snd_length_le _ _ _)

theorem pyMinBy_mem {key : Comparator → Nat} {l : List Comparator} {c : Comparator}
    (h : pyMinBy key l = some c) : c ∈ l := by
  induction l with
  | nil => simp [pyMinBy] at h
  | cons x xs ih =>
    rw [pyMinBy] at h
    split at h
    · obtain rfl : x = c := Option.some.inj h
      exact List.mem_cons_self _ _
    · rename_i y hm
      split at h
      · obtain rfl : y = c := Option.some.inj h
        exact List.mem_cons_of_mem _ (ih hm)
      · obtain rfl : x = c := Option.some.inj h
        exact List.mem_cons_self _ _

theorem pyMinBy_isSome {key : Comparator → Nat} {l : List Comparator} (h : l ≠ []) :
    ∃ c, pyMinBy key l = some c := by
  cases l with
  | nil => exact absurd rfl h
  | cons x xs =>
    simp only [pyMinBy]
    rcases pyMinBy key xs with _ | y
    · exact ⟨x, rfl⟩
    · dsimp only
      split <;> exact ⟨_, rfl⟩

theorem pickNext_mem {count : Comparator → Nat} {remaining : List Comparator}
    {c : Comparator} (h : pickNext count remaining = some c) : c ∈ remaining := by
  unfold pickNext at h
  have hc := pyMinBy_mem h
  dsimp only at hc
  split at hc
  · exact List.mem_of_mem_filter (List.mem_of_mem_filter hc)
  · exact List.mem_of_mem_filter hc

theorem foldl_min_mem (x : Nat) (xs : List Nat) :
    xs.foldl min x = x ∨ xs.foldl min x ∈ xs := by
  induction xs generalizing x with
  | nil => left; rfl
  | cons y ys ih =>
    simp only [List.foldl_cons]
    rcases ih (min x y) with h | h
    · rcases min_choice x y with hm | hm
      · left; rw [h, hm]
      · right; rw [h, hm]; exact List.mem_cons_self _ _
    · right; exact List.mem_cons_of_mem _ h

theorem foldl_max_mem (x : Nat) (xs : List Nat) :
    xs.foldl max x = x ∨ xs.foldl max x ∈ xs := by
  induction xs generalizing x with
  | nil => left; rfl
  | cons y ys ih =>
    simp only [List.foldl_cons]
    rcases ih (max x y) with h | h
    · rcases max_choice x y with hm | hm
      · left; rw [h, hm]
      · right; rw [h, hm]; exact List.mem_cons_self _ _
    · right; exact List.mem_cons_of_mem _ h

theorem listMinD_mem {l : List Nat} (h : l ≠ []) : listMinD l ∈ l := by
  cases l with
  | nil => exact absurd rfl h
  | cons x xs =>
    rcases foldl_min_mem x xs with h | h
    · rw [listMinD, h]; exact List.mem_cons_self _ _
    · exact List.mem_cons_of_mem _ h

theorem listMaxD_mem {l : List Nat} (h : l ≠ []) : listMaxD l ∈ l := by
  cases l with
  | nil => exact absurd rfl h
  | cons x xs =>
    rcases foldl_max_mem x xs with h | h
    · rw [listMaxD, h]; exact List.mem_cons_self _ _
    · exact List.mem_cons_of_mem _ h

theorem pickNext_some {count : Comparator → Nat} {remaining : List Comparator}
    (h : remaining ≠ []) : ∃ c, pickNext count remaining = some c := by
  unfold pickNext
  dsimp only
  apply pyMinBy_isSome
  have hmo : remaining.filter (fun c => count c = listMinD (remaining.map count)) ≠ [] := by
    have := listMinD_mem (l := remaining.map count) (by simpa using h)
    rcases List.mem_map.mp this with ⟨c, hc, hcount⟩
    exact List.ne_nil_of_mem (List.mem_filter.mpr ⟨hc, by simp [hcount]⟩)
  split
  next h1 =>
    have := listMaxD_mem
      (l := (remaining.filter (fun c => count c = listMinD (remaining.map count))).map
        (fun c => c.i2 - c.i1)) (by simpa using hmo)
    rcases List.mem_map.mp this with ⟨c, hc, hr⟩
    exact List.ne_nil_of_mem (List.mem_filter.mpr ⟨hc, by simp [hr]⟩)
  next h1 => exact hmo

theorem pickNext_length_lt {count : Comparator → Nat} {remaining : List Comparator}
    {c : Comparator} (h : pickNext count remaining = some c) :
    (remaining.erase c).length < remaining.length := by
  have hc := pickNext_mem h
  rw [List.length_erase_of_mem hc]
  exact Nat.pred_lt (Nat.not_eq_zero_of_lt (List.length_pos.mpr (List.ne_nil_of_mem hc)))

theorem xor_two_pow_of_testBit_false {x i : Nat} (h : x.testBit i = false) :
    x ^^^ 2 ^ i = x + 2 ^ i := by
  have hx : x = 2 ^ (i + 1) * (x / 2 ^ (i + 1)) + x % 2 ^ (i + 1) :=
    (Nat.div_add_mod x _).symm
  set a := x / 2 ^ (i + 1) with ha
  set b := x % 2 ^ (i + 1) with hb
  have hblt : b < 2 ^ (i + 1) := Nat.mod_lt _ (Nat.two_pow_pos _)
  have hbi : b.testBit i = false := by
    rw [hb, Nat.testBit_mod_two_pow]
    simp [h]
  have hbi2 : b < 2 ^ i := by
    apply Nat.lt_pow_two_of_testBit
    intro k hk
    rcases Nat.eq_or_lt_of_le hk with rfl | hk2
    · exact hbi
    · exact Nat.testBit_lt_two_pow
        (lt_of_lt_of_le hblt (Nat.pow_le_pow_right (by norm_num) hk2))
  apply Nat.eq_of_testBit_eq
  intro j
  have hsum : x + 2 ^ i = 2 ^ (i + 1) * a + (b + 2 ^ i) := by
    conv_lhs => rw [hx]
    rw [Nat.add_assoc]
  rw [Nat.testBit_xor, hsum,
    Nat.testBit_mul_pow_two_add a (by omega : b + 2 ^ i < 2 ^ (i + 1)) j]
  rcases lt_trichotomy j i with hj | hj | hj
  · have h2 : Nat.testBit (2 ^ i) j = false := Nat.testBit_two_pow_of_ne (by omega)
    have hxj : x.testBit j = b.testBit j := by
      conv_lhs => rw [hx]
      rw [Nat.testBit_mul_pow_two_add a hblt j, if_pos (by omega)]
    have hbj : (b + 2 ^ i).testBit j = b.testBit j := by
      rw [Nat.add_comm, Nat.testBit_two_pow_add_gt hj]
    rw [if_pos (by omega), h2, hxj, hbj, Bool.xor_false]
  · subst hj
    have hfl : (b + 2 ^ j).testBit j = !(b.testBit j) := by
      rw [Nat.add_comm]
      exact Nat.testBit_two_pow_add_eq b j
    rw [if_pos (by omega), hfl, hbi, h, Nat.testBit_two_pow_self]
    rfl
  · have h2 : Nat.testBit (2 ^ i) j = false := Nat.testBit_two_pow_of_ne (by omega)
    have hxj : x.testBit j = a.testBit (j - (i + 1)) := by
      conv_lhs => rw [hx]
      rw [Nat.testBit_mul_pow_two_add a hblt j, if_neg (by omega)]
    rw [if_neg (by omega), h2, hxj, Bool.xor_false]

theorem xor_two_pow_of_testBit_true {x i : Nat} (h : x.testBit i = true) :
    x ^^^ 2 ^ i = x - 2 ^ i := by
  have hy : (x ^^^ 2 ^ i).testBit i = false := by
    rw [Nat.testBit_xor, h, Nat.testBit_two_pow_self]
    rfl
  have := xor_two_pow_of_testBit_false hy
  rw [Nat.xor_cancel_right] at this
  omega


/-! ### Lemmas for claim C5 -/

theorem shiftRight_and_one (s k : Nat) :
    (s >>> k) &&& 1 = if s.testBit k then 1 else 0 := by
  rw [Nat.and_one_is_mod, Nat.shiftRight_eq_div_pow, Nat.testBit_to_div_mod]
  rcases Nat.mod_two_eq_zero_or_one (s / 2 ^ k) with h | h <;> simp [h]

theorem or_two_pow_eq_xor {a b : Nat} (h : a ≠ b) :
    2 ^ a ||| 2 ^ b = 2 ^ a ^^^ 2 ^ b := by
  apply Nat.eq_of_testBit_eq
  intro j
  rw [Nat.testBit_or, Nat.testBit_xor]
  rcases eq_or_ne a j with rfl | hj
  · rw [Nat.testBit_two_pow_self, Nat.testBit_two_pow_of_ne (Ne.symm h)]
    rfl
  · rw [Nat.testBit_two_pow_of_ne hj]
    cases Nat.testBit (2 ^ b) j <;> rfl

/-- One iteration of the `sort_binary_sequence` loop is the specification's
bit compare-exchange. -/
theorem sort_binary_step (lo hi s : Nat) :
    (if (s >>> lo) &&& 1 > (s >>> hi) &&& 1
      then s ^^^ ((1 <<< lo) ||| (1 <<< hi)) else s) = cexBitSpec lo hi s := by
  rw [cexBitSpec, shiftRight_and_one, shiftRight_and_one]
  by_cases hlo : s.testBit lo
  · by_cases hhi : s.testBit hi
    · rw [if_neg (by simp [hlo, hhi]), if_neg (by simp [hhi])]
    · have hhi' : s.testBit hi = false := Bool.eq_false_iff.mpr hhi
      have hne : lo ≠ hi := by
        intro e
        rw [e, hhi'] at hlo
        exact Bool.false_ne_true hlo
      rw [if_pos (by simp [hlo, hhi']), if_pos ⟨hlo, hhi'⟩,
        Nat.one_shiftLeft, Nat.one_shiftLeft, or_two_pow_eq_xor hne,
        ← Nat.xor_assoc, xor_two_pow_of_testBit_true hlo]
      have h2 : (s - 2 ^ lo).testBit hi = false := by
        rw [← xor_two_pow_of_testBit_true hlo, Nat.testBit_xor, hhi',
          Nat.testBit_two_pow_of_ne hne]
        rfl
      rw [xor_two_pow_of_testBit_false h2]
      exact (Nat.sub_add_comm (Nat.testBit_implies_ge hlo)).symm
  · have hlo' : s.testBit lo = false := Bool.eq_false_iff.mpr hlo
    rw [if_neg (by simp [hlo']), if_neg (by simp [hlo'])]

/-! ### Lemmas for claims C6 and C7 -/

theorem init_ok_lt {a b : Nat} {c : Comparator} (h : Comparator.init a b = Except.ok c) :
    c.i1 < c.i2 := by
  rw [Comparator.init] at h
  split at h
  · simp at h
  · split at h
    · obtain rfl : (⟨a, b⟩ : Comparator) = c := Except.ok.inj h
      assumption
    · obtain rfl : (⟨b, a⟩ : Comparator) = c := Except.ok.inj h
      rename_i hne hnlt
      exact Nat.lt_of_le_of_ne (Nat.le_of_not_lt hnlt) (Ne.symm hne)

theorem init_error_iff (a b : Nat) :
    (∃ e, Comparator.init a b = Except.error e) ↔ a = b := by
  rw [Comparator.init]
  split
  · simp [*]
  · split <;> simp [*]

theorem foldMax_init_le (cs : Network) (m : Nat) :
    m ≤ List.foldl (fun m c => if c.i2 > m then c.i2 else m) m cs := by
  induction cs generalizing m with
  | nil => exact le_refl m
  | cons c rest ih =>
    refine le_trans ?_ (ih (if c.i2 > m then c.i2 else m))
    split <;> omega

theorem mem_le_foldMax {c : Comparator} : ∀ {cs : Network} (m : Nat), c ∈ cs →
    c.i2 ≤ List.foldl (fun m c => if c.i2 > m then c.i2 else m) m cs := by
  intro cs
  induction cs with
  | nil => intro m h; simp at h
  | cons d rest ih =>
    intro m h
    rcases List.mem_cons.mp h with rfl | h
    · refine le_trans ?_ (foldMax_init_le rest _)
      dsimp only
      split <;> omega
    · exact ih _ h

theorem mem_le_pyMaxInputFold {cs : Network} {c : Comparator} (h : c ∈ cs) :
    c.i2 ≤ pyMaxInputFold cs :=
  mem_le_foldMax 0 h

theorem cexStep_some {α : Type} [LinearOrder α] {r : List α} {c : Comparator}
    (h1 : c.i1 < r.length) (h2 : c.i2 < r.length) :
    ∃ r2, cexStep r c = some r2 ∧ r2.length = r.length := by
  rw [cexStep, List.getElem?_eq_getElem h1, List.getElem?_eq_getElem h2]
  refine ⟨_, rfl, ?_⟩
  split <;> simp

theorem sortFold_some {α : Type} [LinearOrder α] :
    ∀ (cs : Network) (items : List α),
      (∀ c ∈ cs, c.i1 < items.length ∧ c.i2 < items.length) →
      ∃ r, List.foldlM cexStep items cs = some r ∧ r.length = items.length := by
  intro cs
  induction cs with
  | nil => exact fun items _ => ⟨items, rfl, rfl⟩
  | cons c rest ih =>
    intro items hb
    obtain ⟨r1, hr1, hlen1⟩ :=
      cexStep_some (hb c (List.mem_cons_self _ _)).1 (hb c (List.mem_cons_self _ _)).2
    obtain ⟨r, hr, hlen⟩ := ih r1 (fun d hd => by
      rw [hlen1]
      exact hb d (List.mem_cons_of_mem _ hd))
    refine ⟨r, ?_, hlen.trans hlen1⟩
    rw [List.foldlM_cons, hr1]
    exact hr

/-! ### Lemmas for claim C4: bit lists against integer bit operations -/

theorem lt_two_pow_of_xor {n x y : Nat} (hx : x < 2 ^ n) (hy : y < 2 ^ n) :
    x ^^^ y < 2 ^ n := by
  apply Nat.lt_pow_two_of_testBit
  intro k hk
  have hxk : x.testBit k = false :=
    Nat.testBit_lt_two_pow (lt_of_lt_of_le hx (Nat.pow_le_pow_right (by norm_num) hk))
  have hyk : y.testBit k = false :=
    Nat.testBit_lt_two_pow (lt_of_lt_of_le hy (Nat.pow_le_pow_right (by norm_num) hk))
  rw [Nat.testBit_xor, hxk, hyk]
  rfl

theorem bitsList_length (n x : Nat) : (bitsList n x).length = n := by
  induction n generalizing x with
  | zero => rfl
  | succ n ih => simp [bitsList, ih]

theorem bitsList_getD {n j : Nat} (x : Nat) (hj : j < n) :
    (bitsList n x).getD j 0 = (x.testBit j).toNat := by
  induction n generalizing x j with
  | zero => omega
  | succ n ih =>
    cases j with
    | zero =>
      rw [bitsList]
      have h0 := Nat.toNat_testBit x 0
      rcases Nat.mod_two_eq_zero_or_one x with h | h <;> simp [h0, h]
    | succ j =>
      rw [bitsList]
      have h1 : (x % 2 :: bitsList n (x / 2)).getD (j + 1) 0 =
          (bitsList n (x / 2)).getD j 0 := rfl
      rw [h1, ih (x / 2) (by omega), Nat.testBit_div_two]

theorem bitsList_ext {n : Nat} {u : List Nat} (hlen : u.length = n)
    (h : ∀ j, j < n → u.getD j 0 = (bitsList n x).getD j 0) : u = bitsList n x := by
  apply List.ext_getElem (by rw [hlen, bitsList_length])
  intro j h1 h2
  have := h j (by omega)
  rwa [List.getD_eq_getElem?_getD, List.getD_eq_getElem?_getD,
    List.getElem?_eq_getElem h1, List.getElem?_eq_getElem h2] at this

/-- Swapping the head with the element at position `k` set to the old head is
a permutation. -/
theorem getD_cons_set_perm {α : Type} (d : α) :
    ∀ (t : List α) (k : Nat) (x : α), k < t.length →
      List.Perm (t.getD k d :: t.set k x) (x :: t) := by
  intro t
  induction t with
  | nil => intro k x h; simp at h
  | cons y t2 ih =>
    intro k x h
    cases k with
    | zero => exact List.Perm.swap x y t2
    | succ j =>
      have h1 : (y :: t2).getD (j + 1) d = t2.getD j d := rfl
      have h2 : (y :: t2).set (j + 1) x = y :: t2.set j x := rfl
      rw [h1, h2]
      exact (List.Perm.swap y (t2.getD j d) (t2.set j x)).trans
        (((ih j x (by simpa using h)).cons y).trans (List.Perm.swap x y t2))

/-- Writing each of two positions with the other's value is a permutation. -/
theorem set_set_swap_perm {α : Type} (d : α) :
    ∀ (l : List α) (a b : Nat), a < b → b < l.length →
      List.Perm ((l.set a (l.getD b d)).set b (l.getD a d)) l := by
  intro l
  induction l with
  | nil => intro a b hab h; simp at h
  | cons x t ih =>
    intro a b hab h
    cases a with
    | zero =>
      cases b with
      | zero => omega
      | succ k =>
        have h1 : ((x :: t).set 0 ((x :: t).getD (k + 1) d)).set (k + 1) ((x :: t).getD 0 d)
            = t.getD k d :: t.set k x := rfl
        rw [h1]
        exact getD_cons_set_perm d t k x (by simpa using h)
    | succ a2 =>
      cases b with
      | zero => omega
      | succ k =>
        have h1 : ((x :: t).set (a2 + 1) ((x :: t).getD (k + 1) d)).set (k + 1)
            ((x :: t).getD (a2 + 1) d) = x :: (t.set a2 (t.getD k d)).set k (t.getD a2 d) := rfl
        rw [h1]
        exact (ih a2 k (by omega) (by simpa using h)).cons x

theorem testBit_pair_mask {a b j : Nat} :
    ((1 <<< a) ||| (1 <<< b)).testBit j = (decide (a = j) || decide (b = j)) := by
  rw [Nat.one_shiftLeft, Nat.one_shiftLeft, Nat.testBit_or,
    Nat.testBit_two_pow, Nat.testBit_two_pow]

/-- The compare-exchange of `sort_binary_sequence` agrees with the reference
compare-exchange on bit lists, and stays below `2 ^ n`. -/
theorem applyCmp_bitsList {n a b x : Nat} (hab : a < b) (hbn : b < n)
    (hx : x < 2 ^ n) :
    applyCmp a b (bitsList n x) = bitsList n (sbsStep a b x) ∧
      sbsStep a b x < 2 ^ n := by
  have hga : (bitsList n x).getD a 0 = (x.testBit a).toNat := bitsList_getD x (by omega)
  have hgb : (bitsList n x).getD b 0 = (x.testBit b).toNat := bitsList_getD x hbn
  rw [sbsStep, shiftRight_and_one, shiftRight_and_one, applyCmp, hga, hgb]
  by_cases hta : x.testBit a
  · by_cases htb : x.testBit b
    · rw [if_neg (by simp [hta, htb]), if_neg (by simp [hta, htb])]
      exact ⟨rfl, hx⟩
    · have htb' : x.testBit b = false := Bool.eq_false_iff.mpr htb
      rw [if_pos (by simp [hta, htb']), if_pos (by simp [hta, htb'])]
      have hmlt : (1 <<< a) ||| (1 <<< b) < 2 ^ n := by
        apply Nat.lt_pow_two_of_testBit
        intro k hk
        rw [testBit_pair_mask]
        simp only [Bool.or_eq_false_iff, decide_eq_false_iff_not]
        omega
      refine ⟨?_, lt_two_pow_of_xor hx hmlt⟩
      apply bitsList_ext (by simp [bitsList_length])
      intro j hj
      rw [bitsList_getD _ hj, Nat.testBit_xor, testBit_pair_mask]
      rcases eq_or_ne a j with rfl | hja
      · rw [List.getD_eq_getElem?_getD, List.getElem?_eq_getElem
          (by simp [bitsList_length]; omega)]
        rw [List.getElem_set_ne (by omega), List.getElem_set_self]
        simp [hta, htb']
      · rcases eq_or_ne b j with rfl | hjb
        · rw [List.getD_eq_getElem?_getD, List.getElem?_eq_getElem
            (by simp [bitsList_length]; omega)]
          rw [List.getElem_set_self]
          simp [hta, htb']
        · rw [List.getD_eq_getElem?_getD, List.getElem?_eq_getElem
            (by simp [bitsList_length]; omega)]
          rw [List.getElem_set_ne (by omega), List.getElem_set_ne (by omega)]
          have hthis : (bitsList n x).getD j 0 = (x.testBit j).toNat := bitsList_getD x hj
          rw [List.getD_eq_getElem?_getD, List.getElem?_eq_getElem
            (by simp [bitsList_length]; omega)] at hthis
          rw [hthis]
          simp [hja, hjb]
  · have hta' : x.testBit a = false := Bool.eq_false_iff.mpr hta
    rw [if_neg (by simp [hta']), if_neg (by simp [hta'])]
    exact ⟨rfl, hx⟩

theorem cexStep_eq_applyCmp {r : List Nat} {c : Comparator}
    (h1 : c.i1 < r.length) (h2 : c.i2 < r.length) :
    cexStep r c = some (applyCmp c.i1 c.i2 r) := by
  have ha : r.getD c.i1 0 = r[c.i1] := by
    rw [List.getD_eq_getElem?_getD, List.getElem?_eq_getElem h1]
    rfl
  have hb : r.getD c.i2 0 = r[c.i2] := by
    rw [List.getD_eq_getElem?_getD, List.getElem?_eq_getElem h2]
    rfl
  rw [cexStep, applyCmp, List.getElem?_eq_getElem h1, List.getElem?_eq_getElem h2, ha, hb]

theorem applyCmp_perm {a b : Nat} {v : List Nat} (hab : a < b) (hb : b < v.length) :
    (applyCmp a b v).Perm v := by
  rw [applyCmp]
  split
  · exact set_set_swap_perm 0 v a b hab hb
  · exact List.Perm.refl v

theorem foldlM_cex_bits {n : Nat} :
    ∀ (cs : Network) (x : Nat), (∀ c ∈ cs, c.i1 < c.i2 ∧ c.i2 < n) → x < 2 ^ n →
      List.foldlM cexStep (bitsList n x) cs =
          some (bitsList n (sort_binary_sequence cs x)) ∧
        sort_binary_sequence cs x < 2 ^ n := by
  intro cs
  induction cs with
  | nil => exact fun x _ hx => ⟨rfl, hx⟩
  | cons c rest ih =>
    intro x hb hx
    obtain ⟨hc1, hc2⟩ := hb c (List.mem_cons_self _ _)
    obtain ⟨hstep, hlt⟩ := applyCmp_bitsList hc1 hc2 hx
    have hcons : sort_binary_sequence (c :: rest) x =
        sort_binary_sequence rest (sbsStep c.i1 c.i2 x) := rfl
    obtain ⟨hrec, hrlt⟩ :=
      ih (sbsStep c.i1 c.i2 x) (fun d hd => hb d (List.mem_cons_of_mem _ hd)) hlt
    refine ⟨?_, hcons ▸ hrlt⟩
    rw [List.foldlM_cons,
      cexStep_eq_applyCmp (by rw [bitsList_length]; omega) (by rw [bitsList_length]; omega),
      hstep, hcons]
    simpa using hrec

theorem sbs_bits_perm {n : Nat} :
    ∀ (cs : Network) (x : Nat), (∀ c ∈ cs, c.i1 < c.i2 ∧ c.i2 < n) → x < 2 ^ n →
      (bitsList n (sort_binary_sequence cs x)).Perm (bitsList n x) := by
  intro cs
  induction cs with
  | nil => exact fun x _ _ => List.Perm.refl _
  | cons c rest ih =>
    intro x hb hx
    obtain ⟨hc1, hc2⟩ := hb c (List.mem_cons_self _ _)
    obtain ⟨hstep, hlt⟩ := applyCmp_bitsList hc1 hc2 hx
    have hcons : sort_binary_sequence (c :: rest) x =
        sort_binary_sequence rest (sbsStep c.i1 c.i2 x) := rfl
    rw [hcons]
    refine (ih _ (fun d hd => hb d (List.mem_cons_of_mem _ hd)) hlt).trans ?_
    rw [← hstep]
    exact applyCmp_perm hc1 (by rw [bitsList_length]; omega)

/-! ### Lemmas for claim C2: the scheduler is a conflict-preserving permutation -/

theorem has_same_input_self (c : Comparator) : c.has_same_input c = true := by
  simp [Comparator.has_same_input]

theorem has_same_input_comm (c d : Comparator) :
    c.has_same_input d = d.has_same_input c := by
  rw [Bool.eq_iff_iff]
  simp only [Comparator.has_same_input, Bool.or_eq_true, beq_iff_eq]
  tauto

/-- Everything the depth-partition pass guarantees, by induction along the
iteration: writing the remaining list as `r0 ++ iter` where `r0` holds the
already-considered-but-not-added comparators, the pass returns a group and a
rest that permute the input, the `P`-filtered comparators keep their order
across group and rest, a group contains no `P`-comparator once one was
considered, and at most one `P`-comparator overall (for any `P` closed under
sharing an input). -/
theorem scanRound_spec (P : Comparator → Bool)
    (HP : ∀ e f, P e = true → P f = true → e.has_same_input f = true) :
    ∀ (iter considered r0 cur rem : List Comparator),
      (∀ e ∈ r0, e ∈ considered) →
      scanRound iter considered (r0 ++ iter) = (cur, rem) →
      (cur ++ rem).Perm (r0 ++ iter) ∧
      (r0 ++ iter).filter P = cur.filter P ++ rem.filter P ∧
      ((∃ e ∈ considered, P e = true) → cur.filter P = []) ∧
      (cur.filter P).length ≤ 1 := by
  intro iter
  induction iter with
  | nil =>
    intro considered r0 cur rem hinv heq
    rw [List.append_nil] at heq
    rw [scanRound] at heq
    obtain ⟨rfl, rfl⟩ := Prod.mk.inj heq
    refine ⟨by simpa using List.Perm.refl r0, by simp, fun _ => rfl, by simp⟩
  | cons c rest ih =>
    intro considered r0 cur rem hinv heq
    rw [show r0 ++ c :: rest = r0 ++ (c :: rest) from rfl, scanRound] at heq
    by_cases hA : (considered.all fun d => !c.has_same_input d) = true
    · rw [if_pos hA] at heq
      have hAc : ∀ d ∈ considered, c.has_same_input d = false := by
        intro d hd
        have h1 := List.all_eq_true.mp hA d hd
        simpa using h1
      have hc0 : c ∉ r0 := by
        intro hc
        have h1 := hAc c (hinv c hc)
        rw [has_same_input_self] at h1
        exact absurd h1 (by simp)
      have herase : (r0 ++ c :: rest).erase c = r0 ++ rest := by
        rw [List.erase_append_right _ hc0, List.erase_cons_head]
      rw [herase] at heq
      rcases hSR : scanRound rest (considered ++ [c]) (r0 ++ rest) with ⟨cur2, rem2⟩
      rw [hSR] at heq
      obtain ⟨rfl, rfl⟩ := Prod.mk.inj heq
      obtain ⟨IHperm, IHF, IHL, IHB⟩ :=
        ih (considered ++ [c]) r0 cur2 rem2
          (fun e he => List.mem_append_left _ (hinv e he)) hSR
      have hcmem : c ∈ considered ++ [c] :=
        List.mem_append_right _ (List.mem_singleton.mpr rfl)
      refine ⟨?_, ?_, ?_, ?_⟩
      · exact (IHperm.cons c).trans List.perm_middle.symm
      · by_cases hPc : P c = true
        · have hr0f : r0.filter P = [] := List.filter_eq_nil_iff.mpr (by
            intro e he hPe
            have h1 := hAc e (hinv e he)
            rw [HP c e hPc hPe] at h1
            exact absurd h1 (by simp))
          have hcur2 : cur2.filter P = [] := IHL ⟨c, hcmem, hPc⟩
          have hrem2 : rest.filter P = rem2.filter P := by
            have h2 := IHF
            rw [List.filter_append, hr0f, hcur2] at h2
            simpa using h2
          rw [List.filter_append, hr0f, List.filter_cons_of_pos hPc,
            List.filter_cons_of_pos hPc, hcur2, hrem2]
          rfl
        · have hPc' : P c = false := Bool.eq_false_iff.mpr hPc
          have h2 := IHF
          rw [List.filter_append] at h2
          rw [List.filter_append, List.filter_cons_of_neg (by simp [hPc']),
            List.filter_cons_of_neg (by simp [hPc'])]
          exact h2
      · intro hex
        obtain ⟨e, he, hPe⟩ := hex
        by_cases hPc : P c = true
        · have h1 := hAc e he
          rw [HP c e hPc hPe] at h1
          exact absurd h1 (by simp)
        · rw [List.filter_cons_of_neg (by simp [Bool.eq_false_iff.mpr hPc])]
          exact IHL ⟨e, List.mem_append_left _ he, hPe⟩
      · by_cases hPc : P c = true
        · have hcur2 : cur2.filter P = [] := IHL ⟨c, hcmem, hPc⟩
          rw [List.filter_cons_of_pos hPc, hcur2]
          simp
        · rw [List.filter_cons_of_neg (by simp [Bool.eq_false_iff.mpr hPc])]
          exact IHB
    · rw [if_neg hA] at heq
      have hassoc : r0 ++ c :: rest = (r0 ++ [c]) ++ rest := by simp
      rw [hassoc] at heq
      have hinv2 : ∀ e ∈ r0 ++ [c], e ∈ considered ++ [c] := by
        intro e he
        rcases List.mem_append.mp he with h1 | h1
        · exact List.mem_append_left _ (hinv e h1)
        · exact List.mem_append_right _ h1
      obtain ⟨IHperm, IHF, IHL, IHB⟩ := ih (considered ++ [c]) (r0 ++ [c]) cur rem hinv2 heq
      rw [hassoc]
      refine ⟨IHperm, IHF, ?_, IHB⟩
      intro hex
      obtain ⟨e, he, hPe⟩ := hex
      exact IHL ⟨e, List.mem_append_left _ he, hPe⟩

theorem optGroupLoop_perm (count : Comparator → Nat) :
    ∀ (fuel : Nat) (remaining : List Comparator), remaining.length ≤ fuel →
      (optGroupLoop count fuel remaining).Perm remaining := by
  intro fuel
  induction fuel with
  | zero =>
    intro remaining h
    rw [List.length_eq_zero.mp (Nat.le_zero.mp h)]
    exact List.Perm.refl _
  | succ fuel ih =>
    intro remaining h
    rw [optGroupLoop]
    rcases hp : pickNext count remaining with _ | c
    · cases remaining with
      | nil => exact List.Perm.refl _
      | cons x xs =>
        obtain ⟨c, hc⟩ := @pickNext_some count (x :: xs) (List.cons_ne_nil x xs)
        rw [hp] at hc
        exact absurd hc (by simp)
    · have hmem := pickNext_mem hp
      have hlen : (remaining.erase c).length ≤ fuel := by
        rw [List.length_erase_of_mem hmem]
        have := List.length_pos.mpr (List.ne_nil_of_mem hmem)
        omega
      exact ((ih _ hlen).cons c).trans (List.perm_cons_erase hmem).symm

theorem optimize_depth_group_perm (group : List Comparator) :
    (optimize_depth_group group).Perm group :=
  optGroupLoop_perm _ _ group (le_refl _)

/-- A permutation that moves at most one `P`-element keeps the `P`-filtered
sublist unchanged. -/
theorem perm_filter_le_one {P : Comparator → Bool} {l l2 : List Comparator}
    (hperm : l.Perm l2) (hlen : (l2.filter P).length ≤ 1) :
    l.filter P = l2.filter P := by
  have hf := hperm.filter P
  rcases hcase : l2.filter P with _ | ⟨x, rest⟩
  · rw [hcase] at hf
    exact List.perm_nil.mp hf
  · rw [hcase] at hf hlen
    have : rest = [] := by
      cases rest with
      | nil => rfl
      | cons y ys => simp at hlen
    rw [this] at hf ⊢
    exact List.perm_singleton.mp hf

theorem getOptimizedLoop_spec (P : Comparator → Bool)
    (HP : ∀ e f, P e = true → P f = true → e.has_same_input f = true) :
    ∀ (fuel : Nat) (remaining : List Comparator), remaining.length ≤ fuel →
      (getOptimizedLoop fuel remaining).Perm remaining ∧
      (getOptimizedLoop fuel remaining).filter P = remaining.filter P := by
  intro fuel
  induction fuel with
  | zero =>
    intro remaining h
    rw [List.length_eq_zero.mp (Nat.le_zero.mp h)]
    exact ⟨List.Perm.refl _, rfl⟩
  | succ fuel ih =>
    intro remaining h
    cases remaining with
    | nil => exact ⟨List.Perm.refl _, rfl⟩
    | cons c rest =>
      have hunf : getOptimizedLoop (fuel + 1) (c :: rest) =
          optimize_depth_group (scanRound (c :: rest) [] (c :: rest)).1 ++
            getOptimizedLoop fuel (scanRound (c :: rest) [] (c :: rest)).2 := rfl
      rw [hunf]
      rcases hSR : scanRound (c :: rest) [] (c :: rest) with ⟨cur, rem⟩
      obtain ⟨SRperm, SRF, _, SRB⟩ :=
        scanRound_spec P HP (c :: rest) [] [] cur rem (by simp) (by simpa using hSR)
      have hremlen : rem.length ≤ fuel := by
        have h1 := scanRound_snd_length_lt c rest
        rw [hSR] at h1
        simp only [List.length_cons] at h1 h ⊢
        omega
      obtain ⟨IHperm, IHF⟩ := ih rem hremlen
      have hgperm := optimize_depth_group_perm cur
      constructor
      · exact (hgperm.append IHperm).trans (by simpa using SRperm)
      · have hgf : (optimize_depth_group cur).filter P = cur.filter P :=
          perm_filter_le_one hgperm SRB
        rw [List.filter_append, hgf, IHF]
        have h2 := SRF
        simpa using h2.symm

/-! ### Lemmas for claim C1: the scans of the verifier -/

theorem ffnzGo_none {p : List Nat} :
    ∀ (fuel j : Nat), (ffnzGo p fuel j = none ↔
      ∀ k, j ≤ k → k < j + fuel → p.getD k 0 = 0) := by
  intro fuel
  induction fuel with
  | zero =>
    intro j
    simp only [ffnzGo]
    constructor
    · intro _ k h1 h2; omega
    · intro _; trivial
  | succ fuel ih =>
    intro j
    rw [ffnzGo]
    by_cases hp : p.getD j 0 = 0
    · rw [if_neg (not_not_intro hp), ih (j + 1)]
      constructor
      · intro h k h1 h2
        rcases eq_or_lt_of_le h1 with rfl | h3
        · exact hp
        · exact h k (by omega) (by omega)
      · intro h k h1 h2
        exact h k (by omega) (by omega)
    · rw [if_pos hp]
      constructor
      · intro h; exact absurd h (by simp)
      · intro h; exact absurd (h j (le_refl _) (by omega)) hp

theorem ffnzGo_some {p : List Nat} :
    ∀ (fuel j r : Nat), ffnzGo p fuel j = some r →
      j ≤ r ∧ r < j + fuel ∧ p.getD r 0 ≠ 0 ∧ ∀ k, j ≤ k → k < r → p.getD k 0 = 0 := by
  intro fuel
  induction fuel with
  | zero => intro j r h; simp [ffnzGo] at h
  | succ fuel ih =>
    intro j r h
    rw [ffnzGo] at h
    by_cases hp : p.getD j 0 = 0
    · rw [if_neg (not_not_intro hp)] at h
      obtain ⟨h1, h2, h3, h4⟩ := ih (j + 1) r h
      refine ⟨by omega, by omega, h3, fun k hk1 hk2 => ?_⟩
      rcases eq_or_lt_of_le hk1 with rfl | h5
      · exact hp
      · exact h4 k (by omega) hk2
    · rw [if_pos hp] at h
      obtain rfl := Option.some.inj h
      exact ⟨le_refl _, by omega, hp, fun k h1 h2 => by omega⟩

theorem findFirstNonZero_none {p : List Nat} {z o : Nat} :
    findFirstNonZero p z o = none ↔ ∀ k, z ≤ k → k < o → p.getD k 0 = 0 := by
  rw [findFirstNonZero, ffnzGo_none]
  constructor
  · intro h k h1 h2; exact h k h1 (by omega)
  · intro h k h1 h2; exact h k h1 (by omega)

theorem findFirstNonZero_some {p : List Nat} {z o r : Nat}
    (h : findFirstNonZero p z o = some r) :
    z ≤ r ∧ r < o ∧ p.getD r 0 ≠ 0 ∧ ∀ k, z ≤ k → k < r → p.getD k 0 = 0 := by
  obtain ⟨h1, h2, h3, h4⟩ := ffnzGo_some (o - z) z r h
  exact ⟨h1, by omega, h3, h4⟩

theorem flnoGo_none {p : List Nat} :
    ∀ (fuel j : Nat), fuel ≤ j → (flnoGo p fuel j = none ↔
      ∀ k, j - fuel < k → k ≤ j → p.getD k 0 = 1) := by
  intro fuel
  induction fuel with
  | zero =>
    intro j hf
    simp only [flnoGo]
    constructor
    · intro _ k h1 h2; omega
    · intro _; trivial
  | succ fuel ih =>
    intro j hf
    rw [flnoGo]
    by_cases hp : p.getD j 0 = 1
    · rw [if_neg (not_not_intro hp), ih (j - 1) (by omega)]
      constructor
      · intro h k h1 h2
        rcases eq_or_lt_of_le h2 with rfl | h3
        · exact hp
        · exact h k (by omega) (by omega)
      · intro h k h1 h2
        exact h k (by omega) (by omega)
    · rw [if_pos hp]
      constructor
      · intro h; exact absurd h (by simp)
      · intro h; exact absurd (h j (by omega) (le_refl _)) hp

theorem flnoGo_some {p : List Nat} :
    ∀ (fuel j r : Nat), fuel ≤ j → flnoGo p fuel j = some r →
      j - fuel < r ∧ r ≤ j ∧ p.getD r 0 ≠ 1 ∧ ∀ k, r < k → k ≤ j → p.getD k 0 = 1 := by
  intro fuel
  induction fuel with
  | zero => intro j r _ h; simp [flnoGo] at h
  | succ fuel ih =>
    intro j r hf h
    rw [flnoGo] at h
    by_cases hp : p.getD j 0 = 1
    · rw [if_neg (not_not_intro hp)] at h
      obtain ⟨h1, h2, h3, h4⟩ := ih (j - 1) r (by omega) h
      refine ⟨by omega, by omega, h3, fun k hk1 hk2 => ?_⟩
      rcases eq_or_lt_of_le hk2 with rfl | h5
      · exact hp
      · exact h4 k hk1 (by omega)
    · rw [if_pos hp] at h
      obtain rfl := Option.some.inj h
      exact ⟨by omega, le_refl _, hp, fun k h1 h2 => by omega⟩

theorem findLastNonOne_none {p : List Nat} {o z : Nat} :
    findLastNonOne p o z = none ↔ ∀ k, z < k → k ≤ o → p.getD k 0 = 1 := by
  rw [findLastNonOne, flnoGo_none (o - z) o (by omega)]
  constructor
  · intro h k h1 h2; exact h k (by omega) h2
  · intro h k h1 h2; exact h k (by omega) h2

theorem findLastNonOne_some {p : List Nat} {o z r : Nat}
    (h : findLastNonOne p o z = some r) :
    z < r ∧ r ≤ o ∧ p.getD r 0 ≠ 1 ∧ ∀ k, r < k → k ≤ o → p.getD k 0 = 1 := by
  obtain ⟨h1, h2, h3, h4⟩ := flnoGo_some (o - z) o r (by omega) h
  exact ⟨by omega, h2, h3, h4⟩

/-! ### Lemmas for claim C1: `getD`, `set` and completions toolbox -/

theorem list_ext_getD {u v : List Nat} (hl : u.length = v.length)
    (h : ∀ j, j < u.length → u.getD j 0 = v.getD j 0) : u = v := by
  apply List.ext_getElem hl
  intro j h1 h2
  have h3 := h j h1
  rwa [List.getD_eq_getElem?_getD, List.getD_eq_getElem?_getD,
    List.getElem?_eq_getElem h1, List.getElem?_eq_getElem h2] at h3

theorem getD_set_self {l : List Nat} {i x : Nat} (h : i < l.length) :
    (l.set i x).getD i 0 = x := by
  rw [List.getD_eq_getElem?_getD, List.getElem?_eq_getElem (by simpa using h),
    List.getElem_set_self]
  rfl

theorem getD_set_ne {l : List Nat} {i j x : Nat} (h : i ≠ j) :
    (l.set i x).getD j 0 = l.getD j 0 := by
  by_cases hj : j < l.length
  · rw [List.getD_eq_getElem?_getD, List.getElem?_eq_getElem (by simpa using hj),
      List.getElem_set_ne h, ← List.getElem?_eq_getElem hj, ← List.getD_eq_getElem?_getD]
  · have h1 : l.length ≤ j := by omega
    rw [List.getD_eq_getElem?_getD, List.getD_eq_getElem?_getD,
      List.getElem?_eq_none (by simpa using h1), List.getElem?_eq_none h1]

theorem Compl.length {p v : List Nat} (h : Compl p v) : v.length = p.length := h.1

theorem Compl.bin {p v : List Nat} (hvals : ∀ j, j < p.length → p.getD j 0 ≤ 2)
    (h : Compl p v) : ∀ j, j < p.length → v.getD j 0 ≤ 1 := by
  intro j hj
  by_cases h2 : p.getD j 0 = 2
  · exact (h.2 j hj).1 h2
  · rw [(h.2 j hj).2 h2]
    have := hvals j hj
    omega

/-! ### Lemmas for claim C1: exactness of the ternary compare-exchange -/

theorem getD_set_set_a {l : List Nat} {a b x y : Nat} (hab : a ≠ b) (ha : a < l.length) :
    ((l.set a x).set b y).getD a 0 = x := by
  rw [getD_set_ne (Ne.symm hab), getD_set_self ha]

theorem getD_set_set_b {l : List Nat} {a b x y : Nat} (hb : b < l.length) :
    ((l.set a x).set b y).getD b 0 = y :=
  getD_set_self (by simpa using hb)

theorem getD_set_set_other {l : List Nat} {a b x y j : Nat} (hja : j ≠ a) (hjb : j ≠ b) :
    ((l.set a x).set b y).getD j 0 = l.getD j 0 := by
  rw [getD_set_ne (Ne.symm hjb), getD_set_ne (Ne.symm hja)]

theorem Compl.at_eq {p v : List Nat} (h : Compl p v) {j : Nat} (hj : j < p.length)
    (h2 : p.getD j 0 ≠ 2) : v.getD j 0 = p.getD j 0 := (h.2 j hj).2 h2

theorem Compl.at_bin {p v : List Nat} (h : Compl p v) {j : Nat} (hj : j < p.length)
    (h2 : p.getD j 0 = 2) : v.getD j 0 ≤ 1 := (h.2 j hj).1 h2

theorem noop_applyCmp {n a b : Nat} {p v : List Nat} (hlen : p.length = n)
    (ha : a < n) (hb : b < n) (hvals : ∀ j, j < p.length → p.getD j 0 ≤ 2)
    (hca : p.getD a 0 = 0 ∨ p.getD b 0 = 1) (h : Compl p v) :
    applyCmp a b v = v := by
  rw [applyCmp, if_neg]
  rcases hca with h0 | h1
  · have hva : v.getD a 0 = 0 := by
      rw [h.at_eq (by omega) (by rw [h0]; omega), h0]
    rw [hva]
    omega
  · have hvb : v.getD b 0 = 1 := by
      rw [h.at_eq (by omega) (by rw [h1]; omega), h1]
    have hva : v.getD a 0 ≤ 1 := Compl.bin hvals h a (by omega)
    rw [hvb]
    omega

theorem branch_forward {n a b : Nat} {p v : List Nat} (hlen : p.length = n)
    (ha : a < n) (hb : b < n) (hab : a ≠ b)
    (hvals : ∀ j, j < p.length → p.getD j 0 ≤ 2)
    (hpa : p.getD a 0 = 2) (hpb : p.getD b 0 = 2) (h : Compl p v) :
    Compl ((p.set a 0).set b 0) (applyCmp a b v) ∨
      Compl (p.set b 1) (applyCmp a b v) := by
  have hva : v.getD a 0 ≤ 1 := Compl.bin hvals h a (by omega)
  have hvb : v.getD b 0 ≤ 1 := Compl.bin hvals h b (by omega)
  have hvlen : v.length = p.length := h.1
  rw [applyCmp]
  by_cases hcond : v.getD b 0 < v.getD a 0
  · right
    rw [if_pos hcond]
    have hwa : ((v.set a (v.getD b 0)).set b (v.getD a 0)).getD a 0 = v.getD b 0 :=
      getD_set_set_a hab (by omega)
    have hwb : ((v.set a (v.getD b 0)).set b (v.getD a 0)).getD b 0 = v.getD a 0 :=
      getD_set_set_b (by omega)
    refine ⟨by simp [hvlen], fun j hj => ?_⟩
    have hjn : j < p.length := by simpa using hj
    rcases eq_or_ne j b with rfl | hjb
    · rw [getD_set_self (by omega), hwb]
      exact ⟨fun _ => by omega, fun _ => by omega⟩
    · rw [getD_set_ne (Ne.symm hjb)]
      rcases eq_or_ne j a with rfl | hja
      · rw [hwa, hpa]
        exact ⟨fun _ => by omega, fun hx => absurd rfl hx⟩
      · rw [getD_set_set_other hja hjb]
        exact h.2 j hjn
  · rw [if_neg hcond]
    have hsplit : v.getD b 0 = 1 ∨ (v.getD a 0 = 0 ∧ v.getD b 0 = 0) := by omega
    rcases hsplit with h1 | ⟨h0a, h0b⟩
    · right
      refine ⟨by simpa using hvlen, fun j hj => ?_⟩
      have hjn : j < p.length := by simpa using hj
      rcases eq_or_ne j b with rfl | hjb
      · rw [getD_set_self (by omega), h1]
        exact ⟨fun _ => by omega, fun _ => rfl⟩
      · rw [getD_set_ne (Ne.symm hjb)]
        exact h.2 j hjn
    · left
      refine ⟨by simpa using hvlen, fun j hj => ?_⟩
      have hjn : j < p.length := by simpa using hj
      rcases eq_or_ne j b with rfl | hjb
      · rw [getD_set_set_b (by omega), h0b]
        exact ⟨fun _ => by omega, fun _ => rfl⟩
      · rcases eq_or_ne j a with rfl | hja
        · rw [getD_set_set_a hab (by omega), h0a]
          exact ⟨fun _ => by omega, fun _ => rfl⟩
        · rw [getD_set_set_other hja hjb]
          exact h.2 j hjn

theorem branch_back_q {n a b : Nat} {p w : List Nat} (hlen : p.length = n)
    (ha : a < n) (hb : b < n) (hab : a ≠ b)
    (hpa : p.getD a 0 = 2) (hpb : p.getD b 0 = 2)
    (h : Compl ((p.set a 0).set b 0) w) :
    Compl p w ∧ applyCmp a b w = w := by
  have hwlen : w.length = p.length := by simpa using h.1
  have hwb : w.getD b 0 = 0 := by
    have h2 := h.at_eq (j := b) (by simpa using (by omega : b < p.length)) (by
      rw [getD_set_set_b (by omega)]
      omega)
    rwa [getD_set_set_b (by omega)] at h2
  have hwa : w.getD a 0 = 0 := by
    have h2 := h.at_eq (j := a) (by simpa using (by omega : a < p.length)) (by
      rw [getD_set_set_a hab (by omega)]
      omega)
    rwa [getD_set_set_a hab (by omega)] at h2
  constructor
  · refine ⟨hwlen, fun j hj => ?_⟩
    rcases eq_or_ne j b with rfl | hjb
    · rw [hpb, hwb]
      exact ⟨fun _ => by omega, fun hx => absurd rfl hx⟩
    · rcases eq_or_ne j a with rfl | hja
      · rw [hpa, hwa]
        exact ⟨fun _ => by omega, fun hx => absurd rfl hx⟩
      · have h2 := h.2 j (by simpa using hj)
        rwa [getD_set_set_other hja hjb] at h2
  · rw [applyCmp, if_neg]
    rw [hwa, hwb]
    omega

theorem branch_back_p1 {n a b : Nat} {p w : List Nat} (hlen : p.length = n)
    (ha : a < n) (hb : b < n) (hab : a ≠ b)
    (hvals : ∀ j, j < p.length → p.getD j 0 ≤ 2)
    (hpa : p.getD a 0 = 2) (hpb : p.getD b 0 = 2)
    (h : Compl (p.set b 1) w) :
    Compl p w ∧ applyCmp a b w = w := by
  have hwlen : w.length = p.length := by simpa using h.1
  have hwb : w.getD b 0 = 1 := by
    have h2 := h.at_eq (j := b) (by simpa using (by omega : b < p.length)) (by
      rw [getD_set_self (by omega)]
      omega)
    rwa [getD_set_self (by omega)] at h2
  have hwa : w.getD a 0 ≤ 1 := by
    have h2 := h.at_bin (j := a) (by simpa using (by omega : a < p.length)) (by
      rw [getD_set_ne (Ne.symm hab)]
      exact hpa)
    exact h2
  constructor
  · refine ⟨hwlen, fun j hj => ?_⟩
    rcases eq_or_ne j b with rfl | hjb
    · rw [hpb]
      exact ⟨fun _ => by omega, fun hx => absurd rfl hx⟩
    · have h2 := h.2 j (by simpa using hj)
      rwa [getD_set_ne (Ne.symm hjb)] at h2
  · rw [applyCmp, if_neg]
    rw [hwb]
    omega

theorem swap_forward {n a b : Nat} {p v : List Nat} (hlen : p.length = n)
    (ha : a < n) (hb : b < n) (hab : a ≠ b)
    (hvals : ∀ j, j < p.length → p.getD j 0 ≤ 2)
    (hpa : p.getD a 0 ≠ 0) (hpb : p.getD b 0 ≠ 1) (h : Compl p v) :
    Compl ((p.set a (p.getD b 0)).set b (p.getD a 0)) (applyCmp a b v) := by
  have hva : v.getD a 0 ≤ 1 := Compl.bin hvals h a (by omega)
  have hvb : v.getD b 0 ≤ 1 := Compl.bin hvals h b (by omega)
  have hvlen : v.length = p.length := h.1
  have hp2a : p.getD a 0 ≤ 2 := hvals a (by omega)
  have hp2b : p.getD b 0 ≤ 2 := hvals b (by omega)
  have hQa : ((p.set a (p.getD b 0)).set b (p.getD a 0)).getD a 0 = p.getD b 0 :=
    getD_set_set_a hab (by omega)
  have hQb : ((p.set a (p.getD b 0)).set b (p.getD a 0)).getD b 0 = p.getD a 0 :=
    getD_set_set_b (by omega)
  rw [applyCmp]
  by_cases hcond : v.getD b 0 < v.getD a 0
  · rw [if_pos hcond]
    have hWa : ((v.set a (v.getD b 0)).set b (v.getD a 0)).getD a 0 = v.getD b 0 :=
      getD_set_set_a hab (by omega)
    have hWb : ((v.set a (v.getD b 0)).set b (v.getD a 0)).getD b 0 = v.getD a 0 :=
      getD_set_set_b (by omega)
    refine ⟨by simp [hvlen], fun j hj => ?_⟩
    have hjn : j < p.length := by simpa using hj
    rcases eq_or_ne j b with rfl | hjb
    · rw [hQb, hWb]
      constructor
      · intro _; omega
      · intro hx
        exact h.at_eq (by omega) hx
    · rcases eq_or_ne j a with rfl | hja
      · rw [hQa, hWa]
        constructor
        · intro _; omega
        · intro hx
          exact h.at_eq (by omega) hx
      · rw [getD_set_set_other hja hjb, getD_set_set_other hja hjb]
        exact h.2 j hjn
  · rw [if_neg hcond]
    refine ⟨by simpa using hvlen, fun j hj => ?_⟩
    have hjn : j < p.length := by simpa using hj
    rcases eq_or_ne j b with rfl | hjb
    · rw [hQb]
      constructor
      · intro _; omega
      · intro hx
        -- p[a] is determined and not 0, hence 1, hence v[a] = 1 ≤ v[b]
        have hpa1 : p.getD a 0 = 1 := by omega
        have hva1 : v.getD a 0 = 1 := by
          rw [h.at_eq (j := a) (by omega) (by omega), hpa1]
        omega
    · rcases eq_or_ne j a with rfl | hja
      · rw [hQa]
        constructor
        · intro _; omega
        · intro hx
          -- p[b] is determined and not 1, hence 0, hence v[b] = 0 ≥ v[a]
          have hpb0 : p.getD b 0 = 0 := by omega
          have hvb0 : v.getD b 0 = 0 := by
            rw [h.at_eq (j := b) (by omega) (by omega), hpb0]
          omega
      · rw [getD_set_set_other hja hjb]
        exact h.2 j hjn

theorem applyCmp_swap_involution {w : List Nat} {a b : Nat} (hab : a ≠ b)
    (ha : a < w.length) (hb : b < w.length) (hle : w.getD a 0 ≤ w.getD b 0) :
    applyCmp a b ((w.set a (w.getD b 0)).set b (w.getD a 0)) = w := by
  have hVa : ((w.set a (w.getD b 0)).set b (w.getD a 0)).getD a 0 = w.getD b 0 :=
    getD_set_set_a hab ha
  have hVb : ((w.set a (w.getD b 0)).set b (w.getD a 0)).getD b 0 = w.getD a 0 :=
    getD_set_set_b hb
  rw [applyCmp, hVa, hVb]
  by_cases hc : w.getD a 0 < w.getD b 0
  · rw [if_pos hc]
    apply list_ext_getD (by simp)
    intro j hj
    by_cases hjb : j = b
    · rw [hjb, getD_set_set_b (by simp only [List.length_set]; omega)]
    · by_cases hja : j = a
      · rw [hja, getD_set_set_a hab (by simp only [List.length_set]; omega)]
      · rw [getD_set_set_other hja hjb, getD_set_set_other hja hjb]
  · rw [if_neg hc]
    have heq : w.getD a 0 = w.getD b 0 := by omega
    apply list_ext_getD (by simp)
    intro j hj
    by_cases hjb : j = b
    · rw [hjb, getD_set_set_b (by omega), heq]
    · by_cases hja : j = a
      · rw [hja, getD_set_set_a hab (by omega), heq]
      · rw [getD_set_set_other hja hjb]

theorem swap_back {n a b : Nat} {p w : List Nat} (hlen : p.length = n)
    (ha : a < n) (hb : b < n) (hab : a ≠ b)
    (hvals : ∀ j, j < p.length → p.getD j 0 ≤ 2)
    (hpa : p.getD a 0 ≠ 0) (hpb : p.getD b 0 ≠ 1)
    (hn2 : ¬(p.getD a 0 = 2 ∧ p.getD b 0 = 2))
    (h : Compl ((p.set a (p.getD b 0)).set b (p.getD a 0)) w) :
    ∃ v, Compl p v ∧ applyCmp a b v = w := by
  have hwlen : w.length = p.length := by simpa using h.1
  have hp2a : p.getD a 0 ≤ 2 := hvals a (by omega)
  have hp2b : p.getD b 0 ≤ 2 := hvals b (by omega)
  have hQa : ((p.set a (p.getD b 0)).set b (p.getD a 0)).getD a 0 = p.getD b 0 :=
    getD_set_set_a hab (by omega)
  have hQlen : ((p.set a (p.getD b 0)).set b (p.getD a 0)).length = p.length := by simp
  have hQb : ((p.set a (p.getD b 0)).set b (p.getD a 0)).getD b 0 = p.getD a 0 :=
    getD_set_set_b (by omega)
  have hwa2 : w.getD a 0 ≤ 1 := by
    by_cases h2 : p.getD b 0 = 2
    · have := h.at_bin (j := a) (by omega) (by rw [hQa]; exact h2)
      exact this
    · have := h.at_eq (j := a) (by omega) (by rw [hQa]; exact h2)
      rw [hQa] at this
      omega
  have hwb2 : w.getD b 0 ≤ 1 := by
    by_cases h2 : p.getD a 0 = 2
    · have := h.at_bin (j := b) (by omega) (by rw [hQb]; exact h2)
      exact this
    · have := h.at_eq (j := b) (by omega) (by rw [hQb]; exact h2)
      rw [hQb] at this
      omega
  have hwab : w.getD a 0 ≤ w.getD b 0 := by
    rcases Nat.lt_or_ge (p.getD a 0) 2 with h2a | h2a
    · -- p[a] = 1, so w[b] = 1
      have hpa1 : p.getD a 0 = 1 := by omega
      have hwb1 : w.getD b 0 = 1 := by
        have := h.at_eq (j := b) (by omega) (by rw [hQb]; omega)
        rw [hQb, hpa1] at this
        exact this
      omega
    · -- p[a] = 2, so p[b] = 0 (not 2 together, not 1), so w[a] = 0
      have hpa2 : p.getD a 0 = 2 := by omega
      have hpb0 : p.getD b 0 = 0 := by
        rcases Nat.lt_or_ge (p.getD b 0) 2 with h2b | h2b
        · omega
        · exact absurd ⟨hpa2, by omega⟩ hn2
      have hwa0 : w.getD a 0 = 0 := by
        have := h.at_eq (j := a) (by omega) (by rw [hQa]; omega)
        rw [hQa, hpb0] at this
        exact this
      omega
  refine ⟨(w.set a (w.getD b 0)).set b (w.getD a 0), ?_, ?_⟩
  · have hVa : ((w.set a (w.getD b 0)).set b (w.getD a 0)).getD a 0 = w.getD b 0 :=
      getD_set_set_a hab (by omega)
    have hVb : ((w.set a (w.getD b 0)).set b (w.getD a 0)).getD b 0 = w.getD a 0 :=
      getD_set_set_b (by omega)
    refine ⟨by simp [hwlen], fun j hj => ?_⟩
    by_cases hjb : j = b
    · rw [hjb, hVb]
      constructor
      · intro _; omega
      · intro hx
        -- p[b] determined means p[b] = 0 and then w[a] = 0
        have hpb0 : p.getD b 0 = 0 := by omega
        have h3 := h.at_eq (j := a) (by omega) (by rw [hQa]; omega)
        rw [hQa, hpb0] at h3
        rw [h3, hpb0]
    · by_cases hja : j = a
      · rw [hja, hVa]
        constructor
        · intro _; omega
        · intro hx
          have hpa1 : p.getD a 0 = 1 := by omega
          have h3 := h.at_eq (j := b) (by omega) (by rw [hQb]; omega)
          rw [hQb, hpa1] at h3
          rw [h3, hpa1]
      · rw [getD_set_set_other hja hjb]
        have h2 := h.2 j (by omega)
        rwa [getD_set_set_other hja hjb] at h2
  · exact applyCmp_swap_involution hab (by omega) (by omega) hwab

/-! ### Lemmas for claim C1: sorted detection, stability, and the measure -/

/-- If the state is all `0` below `m` and all `1` above `m`, every
completion is sorted (and stays sorted). -/
theorem sortedPattern {n m : Nat} {p : List Nat} (hlen : p.length = n)
    (hvals : ∀ j, j < p.length → p.getD j 0 ≤ 2) (hm : m < n)
    (h0 : ∀ j, j < m → p.getD j 0 = 0) (h1 : ∀ j, m < j → j < n → p.getD j 0 = 1) :
    ∀ v, Compl p v → SortedL v := by
  intro v hv j k hjk hk
  have hvlen : v.length = p.length := hv.1
  have hkn : k < n := by omega
  have hjn : j < n := by omega
  have hbelow : ∀ i, i < m → v.getD i 0 = 0 := fun i hi => by
    rw [hv.at_eq (by omega) (by rw [h0 i hi]; omega), h0 i hi]
  have habove : ∀ i, m < i → i < n → v.getD i 0 = 1 := fun i hi1 hi2 => by
    rw [hv.at_eq (by omega) (by rw [h1 i hi1 hi2]; omega), h1 i hi1 hi2]
  have hmid : v.getD m 0 ≤ 1 := by
    by_cases h2 : p.getD m 0 = 2
    · exact hv.at_bin (by omega) h2
    · rw [hv.at_eq (by omega) h2]
      have := hvals m (by omega)
      omega
  rcases Nat.lt_trichotomy j m with hjm | hjm | hjm
  · rw [hbelow j hjm]
    omega
  · subst hjm
    rw [habove k (by omega) hkn]
    exact hmid
  · rw [habove j hjm hjn, habove k (by omega) hkn]

theorem sorted_applyCmp {a b : Nat} {v : List Nat} (hab : a < b) (hb : b < v.length)
    (hs : SortedL v) : applyCmp a b v = v := by
  rw [applyCmp, if_neg]
  have := hs a b hab hb
  omega

theorem sorted_runList {n : Nat} :
    ∀ (cmps : List (Nat × Nat)) (v : List Nat),
      (∀ ab ∈ cmps, ab.1 < ab.2 ∧ ab.2 < n) → v.length = n → SortedL v →
      runList cmps v = v := by
  intro cmps
  induction cmps with
  | nil => intro v _ _ _; rfl
  | cons ab rest ih =>
    intro v hwf hlen hs
    have h1 := hwf ab (List.mem_cons_self _ _)
    have hstep : applyCmp ab.1 ab.2 v = v := sorted_applyCmp h1.1 (by omega) hs
    have hcons : runList (ab :: rest) v = runList rest (applyCmp ab.1 ab.2 v) := rfl
    rw [hcons, hstep]
    exact ih v (fun d hd => hwf d (List.mem_cons_of_mem _ hd)) hlen hs

theorem count2_cons (y : Nat) (t : List Nat) :
    count2 (y :: t) = (if y == 2 then 1 else 0) + count2 t := by
  rw [count2, count2, List.filter_cons]
  split <;> simp [Nat.add_comm]

theorem count2_set {x : Nat} (hx : x ≠ 2) :
    ∀ (p : List Nat) (j : Nat), j < p.length → p.getD j 0 = 2 →
      count2 (p.set j x) + 1 = count2 p := by
  intro p
  induction p with
  | nil => intro j h; simp at h
  | cons y t ih =>
    intro j hj h2
    cases j with
    | zero =>
      have hy : y = 2 := h2
      have hset : (y :: t).set 0 x = x :: t := rfl
      rw [hset, count2_cons, count2_cons, hy]
      rw [if_neg (by simpa using hx), if_pos (by simp)]
      omega
    | succ j =>
      have hset : (y :: t).set (j + 1) x = y :: t.set j x := rfl
      have h2t : t.getD j 0 = 2 := h2
      have h3 := ih j (by simpa using hj) h2t
      rw [hset, count2_cons, count2_cons]
      omega

theorem count2_perm {p q : List Nat} (h : p.Perm q) : count2 p = count2 q :=
  (h.filter (fun x => x == 2)).length_eq

theorem count2_swap {a b : Nat} {p : List Nat} (hab : a < b) (hb : b < p.length) :
    count2 ((p.set a (p.getD b 0)).set b (p.getD a 0)) = count2 p :=
  count2_perm (set_set_swap_perm 0 p a b hab hb)

theorem count2_replicate (n : Nat) : count2 (List.replicate n 2) = n := by
  induction n with
  | zero => rfl
  | succ n ih =>
    rw [List.replicate_succ, count2_cons, ih, if_pos (by simp)]
    omega

/-! ### Lemmas for claim C1: invariant transfer across one comparator -/

theorem dropCmps_cons {cmps : List (Nat × Nat)} {i : Nat} (h : i < cmps.length) :
    cmps.drop i = cmps.getD i (0, 0) :: cmps.drop (i + 1) := by
  rw [List.getD_eq_getElem _ _ h]
  exact List.drop_eq_getElem_cons h

theorem getD_mem_cmps {cmps : List (Nat × Nat)} {i : Nat} (h : i < cmps.length) :
    cmps.getD i (0, 0) ∈ cmps := by
  rw [List.getD_eq_getElem _ _ h]
  exact List.getElem_mem h

/-- Invariants of the continuing branch after a `(#,#)` comparator. -/
theorem branchInv_continue {n a b i j : Nat} {cmps : List (Nat × Nat)} {p : List Nat}
    (hInv : BranchInv cmps n ⟨i, p, z, o⟩) (hi : i < cmps.length)
    (hab : a < b) (hbn : b < n)
    (hpa : p.getD a 0 = 2) (hpb : p.getD b 0 = 2)
    (hscan : findLastNonOne (p.set b 1) o z = some j) :
    BranchInv cmps n ⟨i + 1, p.set b 1, z, j⟩ := by
  obtain ⟨hlen, hvals, hzero, hone, hzo, ho, hlz, hlo, hiLen⟩ := hInv
  dsimp only at hlen hvals hzero hone hzo ho hlz hlo hiLen
  obtain ⟨hs1, hs2, hs3, hs4⟩ := findLastNonOne_some hscan
  have hbz : z ≤ b := by
    by_contra hc
    rw [hzero b (by omega)] at hpb
    omega
  have hbo : b ≤ o := by
    by_contra hc
    rw [hone b (by omega) (by omega)] at hpb
    omega
  have hL : (p.set b 1).length = n := by simpa using hlen
  have hV : ∀ k, k < n → (p.set b 1).getD k 0 ≤ 2 := by
    intro k hk
    by_cases hkb : k = b
    · rw [hkb, getD_set_self (by omega)]
      omega
    · rw [getD_set_ne (fun hx => hkb hx.symm)]
      exact hvals k hk
  have hZ : ∀ k, k < z → (p.set b 1).getD k 0 = 0 := by
    intro k hk
    rw [getD_set_ne (by omega)]
    exact hzero k hk
  have hO : ∀ k, j < k → k < n → (p.set b 1).getD k 0 = 1 := by
    intro k hk1 hk2
    rcases Nat.lt_or_ge o k with hko | hko
    · by_cases hkb : k = b
      · rw [hkb, getD_set_self (by omega)]
      · rw [getD_set_ne (fun hx => hkb hx.symm)]
        exact hone k hko hk2
    · exact hs4 k hk1 (by omega)
  have hLZ : (p.set b 1).getD z 0 ≠ 0 := by
    by_cases hzb : z = b
    · rw [hzb, getD_set_self (by omega)]
      omega
    · rw [getD_set_ne (fun hx => hzb hx.symm)]
      exact hlz
  have hZO : z < j := by omega
  have hON : j < n := by omega
  have hI : i + 1 ≤ cmps.length := by omega
  exact ⟨hL, hV, hZ, hO, hZO, hON, hLZ, hs3, hI⟩

/-- Invariants of the pushed branch after a `(#,#)` comparator. -/
theorem branchInv_pushed {n a b i j : Nat} {cmps : List (Nat × Nat)} {p : List Nat}
    (hInv : BranchInv cmps n ⟨i, p, z, o⟩) (hi : i < cmps.length)
    (hab : a < b) (hbn : b < n)
    (hpa : p.getD a 0 = 2) (hpb : p.getD b 0 = 2)
    (hscan : findFirstNonZero ((p.set a 0).set b 0) z o = some j) :
    BranchInv cmps n ⟨i + 1, (p.set a 0).set b 0, j, o⟩ := by
  obtain ⟨hlen, hvals, hzero, hone, hzo, ho, hlz, hlo, hiLen⟩ := hInv
  dsimp only at hlen hvals hzero hone hzo ho hlz hlo hiLen
  obtain ⟨hs1, hs2, hs3, hs4⟩ := findFirstNonZero_some hscan
  have haz : z ≤ a := by
    by_contra hc
    rw [hzero a (by omega)] at hpa
    omega
  have hbo : b ≤ o := by
    by_contra hc
    rw [hone b (by omega) (by omega)] at hpb
    omega
  have hL : ((p.set a 0).set b 0).length = n := by simpa using hlen
  have hV : ∀ k, k < n → ((p.set a 0).set b 0).getD k 0 ≤ 2 := by
    intro k hk
    by_cases hkb : k = b
    · rw [hkb, getD_set_set_b (by omega)]
      omega
    · by_cases hka : k = a
      · rw [hka, getD_set_set_a (by omega) (by omega)]
        omega
      · rw [getD_set_set_other hka hkb]
        exact hvals k hk
  have hZ : ∀ k, k < j → ((p.set a 0).set b 0).getD k 0 = 0 := by
    intro k hk
    rcases Nat.lt_or_ge k z with hkz | hkz
    · rw [getD_set_set_other (by omega) (by omega)]
      exact hzero k hkz
    · exact hs4 k hkz hk
  have hO : ∀ k, o < k → k < n → ((p.set a 0).set b 0).getD k 0 = 1 := by
    intro k hk1 hk2
    rw [getD_set_set_other (by omega) (by omega)]
    exact hone k hk1 hk2
  have hLO : ((p.set a 0).set b 0).getD o 0 ≠ 1 := by
    by_cases hob : o = b
    · rw [hob, getD_set_set_b (by omega)]
      omega
    · by_cases hoa : o = a
      · rw [hoa, getD_set_set_a (by omega) (by omega)]
        omega
      · rw [getD_set_set_other hoa hob]
        exact hlo
  have hZO : j < o := by omega
  have hI : i + 1 ≤ cmps.length := by omega
  exact ⟨hL, hV, hZ, hO, hZO, ho, hs3, hLO, hI⟩

/-- Invariants of the branch after a swapping comparator. -/
theorem branchInv_swap {n a b i z2 o2 : Nat} {cmps : List (Nat × Nat)} {p : List Nat}
    (hInv : BranchInv cmps n ⟨i, p, z, o⟩) (hi : i < cmps.length)
    (hab : a < b) (hbn : b < n)
    (hpa : p.getD a 0 ≠ 0) (hpb : p.getD b 0 ≠ 1)
    (hscanz : findFirstNonZero ((p.set a (p.getD b 0)).set b (p.getD a 0)) z o = some z2)
    (hscano : findLastNonOne ((p.set a (p.getD b 0)).set b (p.getD a 0)) o z2 = some o2) :
    BranchInv cmps n ⟨i + 1, (p.set a (p.getD b 0)).set b (p.getD a 0), z2, o2⟩ := by
  obtain ⟨hlen, hvals, hzero, hone, hzo, ho, hlz, hlo, hiLen⟩ := hInv
  dsimp only at hlen hvals hzero hone hzo ho hlz hlo hiLen
  obtain ⟨hz1, hz2, hz3, hz4⟩ := findFirstNonZero_some hscanz
  obtain ⟨ho1, ho2, ho3, ho4⟩ := findLastNonOne_some hscano
  have haz : z ≤ a := by
    by_contra hc
    rw [hzero a (by omega)] at hpa
    exact hpa rfl
  have hbo : b ≤ o := by
    by_contra hc
    rw [hone b (by omega) (by omega)] at hpb
    exact hpb rfl
  have hL : ((p.set a (p.getD b 0)).set b (p.getD a 0)).length = n := by simpa using hlen
  have hV : ∀ k, k < n → ((p.set a (p.getD b 0)).set b (p.getD a 0)).getD k 0 ≤ 2 := by
    intro k hk
    by_cases hkb : k = b
    · rw [hkb, getD_set_set_b (by omega)]
      exact hvals a (by omega)
    · by_cases hka : k = a
      · rw [hka, getD_set_set_a (by omega) (by omega)]
        exact hvals b (by omega)
      · rw [getD_set_set_other hka hkb]
        exact hvals k hk
  have hZ : ∀ k, k < z2 → ((p.set a (p.getD b 0)).set b (p.getD a 0)).getD k 0 = 0 := by
    intro k hk
    rcases Nat.lt_or_ge k z with hkz | hkz
    · rw [getD_set_set_other (by omega) (by omega)]
      exact hzero k hkz
    · exact hz4 k hkz (by omega)
  have hO : ∀ k, o2 < k → k < n → ((p.set a (p.getD b 0)).set b (p.getD a 0)).getD k 0 = 1 := by
    intro k hk1 hk2
    rcases Nat.lt_or_ge o k with hko | hko
    · rw [getD_set_set_other (by omega) (by omega)]
      exact hone k hko hk2
    · exact ho4 k hk1 (by omega)
  have hZO : z2 < o2 := by omega
  have hON : o2 < n := by omega
  have hI : i + 1 ≤ cmps.length := by omega
  exact ⟨hL, hV, hZ, hO, hZO, hON, hz3, ho3, hI⟩

/-! ### The master lemma for the inner loop of the verifier -/

theorem stackM_nil : stackM [] = 0 := rfl

theorem stackM_cons (br : Branch) (l : List Branch) :
    stackM (br :: l) = 2 ^ count2 br.p + stackM l := by
  simp [stackM]

theorem stackM_append (l1 l2 : List Branch) :
    stackM (l1 ++ l2) = stackM l1 + stackM l2 := by
  induction l1 with
  | nil => simp [stackM]
  | cons x t ih =>
    rw [List.cons_append, stackM_cons, stackM_cons, ih]
    omega

/-- Everything one run of the inner comparator loop guarantees.  When it
returns `none` the branch has a completion whose future execution is
unsorted; when it breaks out sorted, the pushed branches are well-formed,
their total measure is strictly below the branch's own measure, every
completion of the branch either ends sorted or is carried by some pushed
branch, and every pushed branch's completions trace back to the branch. -/
theorem innerLoop_spec {n : Nat} {cmps : List (Nat × Nat)}
    (hwfc : ∀ ab ∈ cmps, ab.1 < ab.2 ∧ ab.2 < n) :
    ∀ (fuel i : Nat) (p : List Nat) (z o : Nat) (acc : List Branch),
      fuel = cmps.length - i → i ≤ cmps.length →
      BranchInv cmps n ⟨i, p, z, o⟩ →
      (innerLoop cmps fuel i p z o acc = none →
        ∃ v, Compl p v ∧ ¬ SortedL (runList (cmps.drop i) v)) ∧
      (∀ acc2, innerLoop cmps fuel i p z o acc = some acc2 →
        ∃ pushed, acc2 = pushed ++ acc ∧
          (∀ br ∈ pushed, BranchInv cmps n br) ∧
          stackM pushed + 1 ≤ 2 ^ count2 p ∧
          (∀ v, Compl p v → SortedL (runList (cmps.drop i) v) ∨
            ∃ br ∈ pushed, ∃ w, Compl br.p w ∧
              runList (cmps.drop br.i) w = runList (cmps.drop i) v) ∧
          (∀ br ∈ pushed, ∀ w, Compl br.p w →
            ∃ v, Compl p v ∧ runList (cmps.drop br.i) w = runList (cmps.drop i) v)) := by
  intro fuel
  induction fuel with
  | zero =>
    intro i p z o acc hfuel hile hInv
    obtain ⟨hlen, hvals, hzero, hone, hzo, ho, hlz, hlo, hiLen⟩ := hInv
    dsimp only at hlen hvals hzero hone hzo ho hlz hlo hiLen
    constructor
    · intro _
      have hieq : i = cmps.length := by omega
      have hdrop : cmps.drop i = [] := by
        rw [hieq]
        exact List.drop_length cmps
      -- explicit unsorted completion: 1 at z, 0 at o, determined elsewhere
      have hget : ∀ j, j < n → ((List.range n).map
          (fun j => if j = z then 1 else if j = o then 0 else min (p.getD j 0) 1)).getD j 0
            = if j = z then 1 else if j = o then 0 else min (p.getD j 0) 1 := by
        intro j hj
        rw [List.getD_eq_getElem _ _ (by simpa using hj), List.getElem_map,
          List.getElem_range]
      refine ⟨(List.range n).map
        (fun j => if j = z then 1 else if j = o then 0 else min (p.getD j 0) 1), ?_, ?_⟩
      · refine ⟨by simp; omega, fun j hj => ?_⟩
        have hjn : j < n := by omega
        rw [hget j hjn]
        by_cases hjz : j = z
        · rw [if_pos hjz, hjz]
          have := hvals z (by omega)
          exact ⟨fun _ => by omega, fun h2 => by omega⟩
        · rw [if_neg hjz]
          by_cases hjo : j = o
          · rw [if_pos hjo, hjo]
            have := hvals o (by omega)
            exact ⟨fun _ => by omega, fun h2 => by omega⟩
          · rw [if_neg hjo]
            have := hvals j hjn
            exact ⟨fun h2 => by omega, fun h2 => by omega⟩
      · rw [hdrop]
        intro hsorted
        have h1 := hsorted z o hzo (by
          simp only [runList, List.foldl_nil]
          simp
          omega)
        simp only [runList, List.foldl_nil] at h1
        rw [hget z (by omega), hget o (by omega), if_pos rfl, if_neg (by omega),
          if_pos rfl] at h1
        omega
    · intro acc2 h
      exact absurd h (by simp [innerLoop])
  | succ fuel ih =>
    intro i p z o acc hfuel hile hInv
    have hi : i < cmps.length := by omega
    have hInvKeep := hInv
    obtain ⟨hlen, hvals, hzero, hone, hzo, ho, hlz, hlo, hiLen⟩ := hInvKeep
    dsimp only at hlen hvals hzero hone hzo ho hlz hlo hiLen
    have hvalsL : ∀ j, j < p.length → p.getD j 0 ≤ 2 := fun j hj => hvals j (by omega)
    rcases hab : cmps.getD i (0, 0) with ⟨a, b⟩
    have hw := hwfc (cmps.getD i (0, 0)) (getD_mem_cmps hi)
    rw [hab] at hw
    obtain ⟨hwab, hwbn⟩ := hw
    have hwan : a < n := by omega
    have hdrop : cmps.drop i = (a, b) :: cmps.drop (i + 1) := by
      rw [← hab]
      exact dropCmps_cons hi
    have hrun : ∀ v, runList (cmps.drop i) v = runList (cmps.drop (i + 1)) (applyCmp a b v) := by
      intro v
      rw [hdrop]
      rfl
    have hwfdrop : ∀ ab2 ∈ cmps.drop (i + 1), ab2.1 < ab2.2 ∧ ab2.2 < n :=
      fun d hd => hwfc d (List.mem_of_mem_drop hd)
    by_cases hbr : p.getD a 0 = 2 ∧ p.getD b 0 = 2
    · -- the `(#,#)` branching comparator
      obtain ⟨hpa, hpb⟩ := hbr
      have hcq : count2 ((p.set a 0).set b 0) + 2 = count2 p := by
        have h1 : count2 (p.set a 0) + 1 = count2 p :=
          count2_set (by omega) p a (by omega) hpa
        have h2 : count2 ((p.set a 0).set b 0) + 1 = count2 (p.set a 0) := by
          refine count2_set (by omega) (p.set a 0) b (by simp; omega) ?_
          rw [getD_set_ne (by omega)]
          exact hpb
        omega
      have hcp1 : count2 (p.set b 1) + 1 = count2 p :=
        count2_set (by omega) p b (by omega) hpb
      -- where the pushed branch (if any) sends completions
      have hPBgood : ∀ j2, findFirstNonZero ((p.set a 0).set b 0) z o = some j2 →
          BranchInv cmps n ⟨i + 1, (p.set a 0).set b 0, j2, o⟩ :=
        fun j2 hpush => branchInv_pushed hInv hi hwab hwbn hpa hpb hpush
      have hqback : ∀ w, Compl ((p.set a 0).set b 0) w →
          Compl p w ∧ runList (cmps.drop (i + 1)) w = runList (cmps.drop i) w := by
        intro w hw2
        obtain ⟨h1, h2⟩ := branch_back_q hlen hwan hwbn (by omega) hpa hpb hw2
        refine ⟨h1, ?_⟩
        rw [hrun w, h2]
      have hp1back : ∀ w, Compl (p.set b 1) w →
          Compl p w ∧ runList (cmps.drop (i + 1)) w = runList (cmps.drop i) w := by
        intro w hw2
        obtain ⟨h1, h2⟩ := branch_back_p1 hlen hwan hwbn (by omega) hvalsL hpa hpb hw2
        refine ⟨h1, ?_⟩
        rw [hrun w, h2]
      -- if the pushed state's scan is empty, the pushed state is fully sorted
      have hqsorted : findFirstNonZero ((p.set a 0).set b 0) z o = none →
          ∀ w, Compl ((p.set a 0).set b 0) w →
            SortedL (runList (cmps.drop (i + 1)) w) := by
        intro hnone w hw2
        have hbz : z ≤ a := by
          by_contra hc
          rw [hzero a (by omega)] at hpa
          omega
        have hbo : b ≤ o := by
          by_contra hc
          rw [hone b (by omega) (by omega)] at hpb
          omega
        have hsw : SortedL w := by
          refine sortedPattern (n := n) (m := o) (by simpa using hlen) ?_ (by omega) ?_ ?_ w hw2
          · intro k hk
            have hkn : k < n := by
              simp only [List.length_set] at hk
              omega
            by_cases hkb : k = b
            · rw [hkb, getD_set_set_b (by omega)]
              omega
            · by_cases hka : k = a
              · rw [hka, getD_set_set_a (by omega) (by omega)]
                omega
              · rw [getD_set_set_other hka hkb]
                exact hvals k hkn
          · intro k hk
            rcases Nat.lt_or_ge k z with hkz | hkz
            · rw [getD_set_set_other (by omega) (by omega)]
              exact hzero k hkz
            · exact (findFirstNonZero_none.mp hnone) k hkz hk
          · intro k hk1 hk2
            rw [getD_set_set_other (by omega) (by omega)]
            exact hone k hk1 hk2
        rw [sorted_runList (n := n) _ w hwfdrop (by rw [hw2.length]; simpa using hlen) hsw]
        exact hsw
      -- if the continuing state's scan is empty, it is fully sorted
      have hp1sorted : findLastNonOne (p.set b 1) o z = none →
          ∀ w, Compl (p.set b 1) w → SortedL (runList (cmps.drop (i + 1)) w) := by
        intro hnone w hw2
        have hbz : z ≤ b := by
          by_contra hc
          rw [hzero b (by omega)] at hpb
          omega
        have hbo : b ≤ o := by
          by_contra hc
          rw [hone b (by omega) (by omega)] at hpb
          omega
        have hsw : SortedL w := by
          refine sortedPattern (n := n) (m := z) (by simpa using hlen) ?_ (by omega) ?_ ?_ w hw2
          · intro k hk
            have hkn : k < n := by
              simp only [List.length_set] at hk
              omega
            by_cases hkb : k = b
            · rw [hkb, getD_set_self (by omega)]
              omega
            · rw [getD_set_ne (fun hx => hkb hx.symm)]
              exact hvals k hkn
          · intro k hk
            rw [getD_set_ne (by omega)]
            exact hzero k hk
          · intro k hk1 hk2
            rcases le_or_lt k o with hko | hko
            · exact (findLastNonOne_none.mp hnone) k hk1 hko
            · rw [getD_set_ne (by omega)]
              exact hone k hko hk2
        rw [sorted_runList (n := n) _ w hwfdrop (by rw [hw2.length]; simpa using hlen) hsw]
        exact hsw
      rcases hscan : findLastNonOne (p.set b 1) o z with _ | j
      · -- inner scan empty: every continuation is sorted, break out
        rcases hpush : findFirstNonZero ((p.set a 0).set b 0) z o with _ | j2
        · have heq : innerLoop cmps (fuel + 1) i p z o acc = some acc := by
            simp only [innerLoop, hab]
            rw [if_pos ⟨hpa, hpb⟩, hpush, hscan]
          constructor
          · intro hcontr
            rw [heq] at hcontr
            exact absurd hcontr (by simp)
          · intro acc2 hacc2
            rw [heq] at hacc2
            obtain rfl := Option.some.inj hacc2
            refine ⟨[], by simp, by simp, ?_, ?_, by simp⟩
            · rw [stackM_nil]
              have h1 : 1 ≤ 2 ^ count2 p := Nat.one_le_pow _ 2 (by omega)
              omega
            · intro v hv
              left
              rw [hrun v]
              rcases branch_forward hlen hwan hwbn (by omega) hvalsL hpa hpb hv with hq | hp1
              · exact hqsorted hpush _ hq
              · exact hp1sorted hscan _ hp1
        · have heq : innerLoop cmps (fuel + 1) i p z o acc =
              some (Branch.mk (i + 1) ((p.set a 0).set b 0) j2 o :: acc) := by
            simp only [innerLoop, hab]
            rw [if_pos ⟨hpa, hpb⟩, hpush, hscan]
          constructor
          · intro hcontr
            rw [heq] at hcontr
            exact absurd hcontr (by simp)
          · intro acc2 hacc2
            rw [heq] at hacc2
            obtain rfl := Option.some.inj hacc2
            refine ⟨[Branch.mk (i + 1) ((p.set a 0).set b 0) j2 o], rfl, ?_, ?_, ?_, ?_⟩
            · intro br hbr2
              rw [List.mem_singleton] at hbr2
              subst hbr2
              exact hPBgood j2 hpush
            · have e2 : 2 ^ (count2 ((p.set a 0).set b 0) + 2) =
                  4 * 2 ^ count2 ((p.set a 0).set b 0) := by
                rw [Nat.pow_succ, Nat.pow_succ]
                ring
              have h1 : 1 ≤ 2 ^ count2 ((p.set a 0).set b 0) := Nat.one_le_pow _ 2 (by omega)
              have hM : stackM [Branch.mk (i + 1) ((p.set a 0).set b 0) j2 o] =
                  2 ^ count2 ((p.set a 0).set b 0) := by
                rw [stackM_cons, stackM_nil]
                rfl
              have hcp : count2 p = count2 ((p.set a 0).set b 0) + 2 := by omega
              rw [hM, hcp, e2]
              omega
            · intro v hv
              rcases branch_forward hlen hwan hwbn (by omega) hvalsL hpa hpb hv with hq | hp1
              · right
                refine ⟨Branch.mk (i + 1) ((p.set a 0).set b 0) j2 o,
                  List.mem_singleton_self _, applyCmp a b v, hq, ?_⟩
                exact (hrun v).symm
              · left
                rw [hrun v]
                exact hp1sorted hscan _ hp1
            · intro br hm w hw
              rw [List.mem_singleton] at hm
              subst hm
              obtain ⟨hvp, hrr⟩ := hqback w hw
              exact ⟨w, hvp, hrr⟩
      · -- continue with the `(#,1)` state
        have hInv2 := branchInv_continue hInv hi hwab hwbn hpa hpb hscan
        rcases hpush : findFirstNonZero ((p.set a 0).set b 0) z o with _ | j2
        · have heq : innerLoop cmps (fuel + 1) i p z o acc =
              innerLoop cmps fuel (i + 1) (p.set b 1) z j acc := by
            simp only [innerLoop, hab]
            rw [if_pos ⟨hpa, hpb⟩, hpush, hscan]
          have IH := ih (i + 1) (p.set b 1) z j acc (by omega) (by omega) hInv2
          constructor
          · intro hcontr
            rw [heq] at hcontr
            obtain ⟨v', hv', hns⟩ := IH.1 hcontr
            obtain ⟨hvp, hrr⟩ := hp1back v' hv'
            refine ⟨v', hvp, ?_⟩
            rw [← hrr]
            exact hns
          · intro acc2 hacc2
            rw [heq] at hacc2
            obtain ⟨pushed', hacc2eq, hinv', hmeas', hcov', hback'⟩ := IH.2 acc2 hacc2
            refine ⟨pushed', hacc2eq, hinv', ?_, ?_, ?_⟩
            · have hle : 2 ^ count2 (p.set b 1) ≤ 2 ^ count2 p :=
                Nat.pow_le_pow_right (by omega) (by omega)
              omega
            · intro v hv
              rcases branch_forward hlen hwan hwbn (by omega) hvalsL hpa hpb hv with hq | hp1
              · left
                rw [hrun v]
                exact hqsorted hpush _ hq
              · rcases hcov' (applyCmp a b v) hp1 with hs | ⟨br, hbrm, w', hw', heqr⟩
                · left
                  rw [hrun v]
                  exact hs
                · right
                  refine ⟨br, hbrm, w', hw', ?_⟩
                  rw [heqr]
                  exact (hrun v).symm
            · intro br hm w hw
              obtain ⟨v', hv', heqr⟩ := hback' br hm w hw
              obtain ⟨hvp, hrr⟩ := hp1back v' hv'
              exact ⟨v', hvp, by rw [heqr, hrr]⟩
        · -- push the `(0,0)` state and continue
          have heq : innerLoop cmps (fuel + 1) i p z o acc =
              innerLoop cmps fuel (i + 1) (p.set b 1) z j
                (Branch.mk (i + 1) ((p.set a 0).set b 0) j2 o :: acc) := by
            simp only [innerLoop, hab]
            rw [if_pos ⟨hpa, hpb⟩, hpush, hscan]
          have IH := ih (i + 1) (p.set b 1) z j
            (Branch.mk (i + 1) ((p.set a 0).set b 0) j2 o :: acc) (by omega) (by omega) hInv2
          constructor
          · intro hcontr
            rw [heq] at hcontr
            obtain ⟨v', hv', hns⟩ := IH.1 hcontr
            obtain ⟨hvp, hrr⟩ := hp1back v' hv'
            refine ⟨v', hvp, ?_⟩
            rw [← hrr]
            exact hns
          · intro acc2 hacc2
            rw [heq] at hacc2
            obtain ⟨pushed', hacc2eq, hinv', hmeas', hcov', hback'⟩ := IH.2 acc2 hacc2
            refine ⟨pushed' ++ [Branch.mk (i + 1) ((p.set a 0).set b 0) j2 o], ?_, ?_, ?_, ?_, ?_⟩
            · rw [hacc2eq, List.append_assoc]
              rfl
            · intro br hbr2
              rcases List.mem_append.mp hbr2 with hm | hm
              · exact hinv' br hm
              · rw [List.mem_singleton] at hm
                subst hm
                exact hPBgood j2 hpush
            · have e1 : 2 ^ (count2 ((p.set a 0).set b 0) + 1) =
                  2 * 2 ^ count2 ((p.set a 0).set b 0) := by
                rw [Nat.pow_succ]
                ring
              have e2 : 2 ^ (count2 ((p.set a 0).set b 0) + 2) =
                  4 * 2 ^ count2 ((p.set a 0).set b 0) := by
                rw [Nat.pow_succ, Nat.pow_succ]
                ring
              have h1 : 1 ≤ 2 ^ count2 ((p.set a 0).set b 0) := Nat.one_le_pow _ 2 (by omega)
              have hM : stackM (pushed' ++ [Branch.mk (i + 1) ((p.set a 0).set b 0) j2 o]) =
                  stackM pushed' + 2 ^ count2 ((p.set a 0).set b 0) := by
                rw [stackM_append, stackM_cons, stackM_nil]
                rfl
              have hcp : count2 p = count2 ((p.set a 0).set b 0) + 2 := by omega
              have hcp2 : count2 (p.set b 1) = count2 ((p.set a 0).set b 0) + 1 := by omega
              rw [hM, hcp, e2]
              rw [hcp2, e1] at hmeas'
              omega
            · intro v hv
              rcases branch_forward hlen hwan hwbn (by omega) hvalsL hpa hpb hv with hq | hp1
              · right
                refine ⟨Branch.mk (i + 1) ((p.set a 0).set b 0) j2 o,
                  List.mem_append_right _ (List.mem_singleton_self _), applyCmp a b v, hq, ?_⟩
                exact (hrun v).symm
              · rcases hcov' (applyCmp a b v) hp1 with hs | ⟨br, hbrm, w', hw', heqr⟩
                · left
                  rw [hrun v]
                  exact hs
                · right
                  refine ⟨br, List.mem_append_left _ hbrm, w', hw', ?_⟩
                  rw [heqr]
                  exact (hrun v).symm
            · intro br hm w hw
              rcases List.mem_append.mp hm with hm2 | hm2
              · obtain ⟨v', hv', heqr⟩ := hback' br hm2 w hw
                obtain ⟨hvp, hrr⟩ := hp1back v' hv'
                exact ⟨v', hvp, by rw [heqr, hrr]⟩
              · rw [List.mem_singleton] at hm2
                subst hm2
                obtain ⟨hvp, hrr⟩ := hqback w hw
                exact ⟨w, hvp, hrr⟩
    · by_cases hsw : p.getD a 0 ≠ 0 ∧ p.getD b 0 ≠ 1
      · -- the swapping comparator: the state lines are exchanged
        have hbz : z ≤ a := by
          by_contra hc
          exact hsw.1 (hzero a (by omega))
        have hbo : b ≤ o := by
          by_contra hc
          exact hsw.2 (hone b (by omega) (by omega))
        have hvals2 : ∀ k, k < ((p.set a (p.getD b 0)).set b (p.getD a 0)).length →
            ((p.set a (p.getD b 0)).set b (p.getD a 0)).getD k 0 ≤ 2 := by
          intro k hk
          have hkn : k < n := by
            simp only [List.length_set] at hk
            omega
          by_cases hkb : k = b
          · rw [hkb, getD_set_set_b (by omega)]
            exact hvals a (by omega)
          · by_cases hka : k = a
            · rw [hka, getD_set_set_a (by omega) (by omega)]
              exact hvals b (by omega)
            · rw [getD_set_set_other hka hkb]
              exact hvals k hkn
        have hswfwd : ∀ v, Compl p v →
            Compl ((p.set a (p.getD b 0)).set b (p.getD a 0)) (applyCmp a b v) :=
          fun v hv => swap_forward hlen hwan hwbn (by omega) hvalsL hsw.1 hsw.2 hv
        have hswback : ∀ w, Compl ((p.set a (p.getD b 0)).set b (p.getD a 0)) w →
            ∃ v, Compl p v ∧ runList (cmps.drop (i + 1)) w = runList (cmps.drop i) v := by
          intro w hw2
          obtain ⟨v, hv, happ⟩ := swap_back hlen hwan hwbn (by omega) hvalsL hsw.1 hsw.2 hbr hw2
          refine ⟨v, hv, ?_⟩
          rw [hrun v, happ]
        have hsortnone : findFirstNonZero ((p.set a (p.getD b 0)).set b (p.getD a 0)) z o = none →
            ∀ w, Compl ((p.set a (p.getD b 0)).set b (p.getD a 0)) w →
              SortedL (runList (cmps.drop (i + 1)) w) := by
          intro hnone w hw2
          have hsw2 : SortedL w := by
            refine sortedPattern (n := n) (m := o) (by simpa using hlen) hvals2
              (by omega) ?_ ?_ w hw2
            · intro k hk
              rcases Nat.lt_or_ge k z with hkz | hkz
              · rw [getD_set_set_other (by omega) (by omega)]
                exact hzero k hkz
              · exact (findFirstNonZero_none.mp hnone) k hkz hk
            · intro k hk1 hk2
              rw [getD_set_set_other (by omega) (by omega)]
              exact hone k hk1 hk2
          rw [sorted_runList (n := n) _ w hwfdrop (by rw [hw2.length]; simpa using hlen) hsw2]
          exact hsw2
        rcases hz : findFirstNonZero ((p.set a (p.getD b 0)).set b (p.getD a 0)) z o with _ | z2
        · have heq : innerLoop cmps (fuel + 1) i p z o acc = some acc := by
            simp only [innerLoop, hab]
            rw [if_neg hbr, if_pos hsw, hz]
          constructor
          · intro hcontr
            rw [heq] at hcontr
            exact absurd hcontr (by simp)
          · intro acc2 hacc2
            rw [heq] at hacc2
            obtain rfl := Option.some.inj hacc2
            refine ⟨[], by simp, by simp, ?_, ?_, by simp⟩
            · rw [stackM_nil]
              have h1 : 1 ≤ 2 ^ count2 p := Nat.one_le_pow _ 2 (by omega)
              omega
            · intro v hv
              left
              rw [hrun v]
              exact hsortnone hz (applyCmp a b v) (hswfwd v hv)
        · obtain ⟨hz1, hz2b, hz3, hz4⟩ := findFirstNonZero_some hz
          rcases ho2 : findLastNonOne ((p.set a (p.getD b 0)).set b (p.getD a 0)) o z2 with _ | o2
          · have hsorted2 : ∀ w, Compl ((p.set a (p.getD b 0)).set b (p.getD a 0)) w →
                SortedL (runList (cmps.drop (i + 1)) w) := by
              intro w hw2
              have hsw2 : SortedL w := by
                refine sortedPattern (n := n) (m := z2) (by simpa using hlen) hvals2
                  (by omega) ?_ ?_ w hw2
                · intro k hk
                  rcases Nat.lt_or_ge k z with hkz | hkz
                  · rw [getD_set_set_other (by omega) (by omega)]
                    exact hzero k hkz
                  · exact hz4 k hkz hk
                · intro k hk1 hk2
                  rcases le_or_lt k o with hko | hko
                  · exact (findLastNonOne_none.mp ho2) k hk1 hko
                  · rw [getD_set_set_other (by omega) (by omega)]
                    exact hone k hko hk2
              rw [sorted_runList (n := n) _ w hwfdrop
                (by rw [hw2.length]; simpa using hlen) hsw2]
              exact hsw2
            have heq : innerLoop cmps (fuel + 1) i p z o acc = some acc := by
              simp only [innerLoop, hab]
              rw [if_neg hbr, if_pos hsw, hz]
              dsimp only
              rw [ho2]
            constructor
            · intro hcontr
              rw [heq] at hcontr
              exact absurd hcontr (by simp)
            · intro acc2 hacc2
              rw [heq] at hacc2
              obtain rfl := Option.some.inj hacc2
              refine ⟨[], by simp, by simp, ?_, ?_, by simp⟩
              · rw [stackM_nil]
                have h1 : 1 ≤ 2 ^ count2 p := Nat.one_le_pow _ 2 (by omega)
                omega
              · intro v hv
                left
                rw [hrun v]
                exact hsorted2 (applyCmp a b v) (hswfwd v hv)
          · have heq : innerLoop cmps (fuel + 1) i p z o acc =
                innerLoop cmps fuel (i + 1)
                  ((p.set a (p.getD b 0)).set b (p.getD a 0)) z2 o2 acc := by
              simp only [innerLoop, hab]
              rw [if_neg hbr, if_pos hsw, hz]
              dsimp only
              rw [ho2]
            have hInv2 := branchInv_swap hInv hi hwab hwbn hsw.1 hsw.2 hz ho2
            have IH := ih (i + 1) ((p.set a (p.getD b 0)).set b (p.getD a 0)) z2 o2 acc
              (by omega) (by omega) hInv2
            have hc2 : count2 ((p.set a (p.getD b 0)).set b (p.getD a 0)) = count2 p :=
              count2_swap hwab (by omega)
            constructor
            · intro hcontr
              rw [heq] at hcontr
              obtain ⟨v2, hv2, hns⟩ := IH.1 hcontr
              obtain ⟨v, hv, hrr⟩ := hswback v2 hv2
              refine ⟨v, hv, ?_⟩
              rw [← hrr]
              exact hns
            · intro acc2 hacc2
              rw [heq] at hacc2
              obtain ⟨pushed', hacc2eq, hinv', hmeas', hcov', hback'⟩ := IH.2 acc2 hacc2
              refine ⟨pushed', hacc2eq, hinv', ?_, ?_, ?_⟩
              · rw [hc2] at hmeas'
                exact hmeas'
              · intro v hv
                rcases hcov' (applyCmp a b v) (hswfwd v hv) with hs | ⟨br, hbrm, w', hw', heqr⟩
                · left
                  rw [hrun v]
                  exact hs
                · right
                  refine ⟨br, hbrm, w', hw', ?_⟩
                  rw [heqr]
                  exact (hrun v).symm
              · intro br hm w hw
                obtain ⟨v2, hv2, heqr⟩ := hback' br hm w hw
                obtain ⟨v, hv, hrr⟩ := hswback v2 hv2
                exact ⟨v, hv, by rw [heqr, hrr]⟩
      · -- noop comparator: `p[a] == 0 or p[b] == 1`
        have hca : p.getD a 0 = 0 ∨ p.getD b 0 = 1 := by
          by_cases h0 : p.getD a 0 = 0
          · exact Or.inl h0
          · by_cases h1 : p.getD b 0 = 1
            · exact Or.inr h1
            · exact absurd ⟨h0, h1⟩ hsw
        have heq : innerLoop cmps (fuel + 1) i p z o acc =
            innerLoop cmps fuel (i + 1) p z o acc := by
          simp only [innerLoop, hab]
          rw [if_neg hbr, if_neg hsw]
        have hInv2 : BranchInv cmps n ⟨i + 1, p, z, o⟩ :=
          ⟨hlen, hvals, hzero, hone, hzo, ho, hlz, hlo, hi⟩
        have IH := ih (i + 1) p z o acc (by omega) (by omega) hInv2
        have hrun2 : ∀ v, Compl p v →
            runList (cmps.drop i) v = runList (cmps.drop (i + 1)) v := by
          intro v hv
          rw [hrun v, noop_applyCmp hlen hwan hwbn hvalsL hca hv]
        constructor
        · intro hcontr
          rw [heq] at hcontr
          obtain ⟨v, hv, hns⟩ := IH.1 hcontr
          refine ⟨v, hv, ?_⟩
          rw [hrun2 v hv]
          exact hns
        · intro acc2 hacc2
          rw [heq] at hacc2
          obtain ⟨pushed', hacc2eq, hinv', hmeas', hcov', hback'⟩ := IH.2 acc2 hacc2
          refine ⟨pushed', hacc2eq, hinv', hmeas', ?_, ?_⟩
          · intro v hv
            rcases hcov' v hv with hs | ⟨br, hbrm, w', hw', heqr⟩
            · left
              rw [hrun2 v hv]
              exact hs
            · right
              refine ⟨br, hbrm, w', hw', ?_⟩
              rw [heqr, ← hrun2 v hv]
          · intro br hm w hw
            obtain ⟨v, hv, heqr⟩ := hback' br hm w hw
            exact ⟨v, hv, by rw [heqr, ← hrun2 v hv]⟩

/-! ### The outer loop, the initial branch, and the binary bridge -/

/-- The outer stack loop, with enough fuel, returns `true` exactly when every
completion of every live branch ends sorted. -/
theorem outerLoop_spec {n : Nat} {cmps : List (Nat × Nat)}
    (hwfc : ∀ ab ∈ cmps, ab.1 < ab.2 ∧ ab.2 < n) :
    ∀ (fuel : Nat) (stack : List Branch),
      stackM stack < fuel →
      (∀ br ∈ stack, BranchInv cmps n br) →
      (outerLoop cmps fuel stack = true ↔
        ∀ br ∈ stack, ∀ w, Compl br.p w → SortedL (runList (cmps.drop br.i) w)) := by
  intro fuel
  induction fuel with
  | zero =>
    intro stack hm _
    exact absurd hm (by omega)
  | succ fuel ih =>
    intro stack hm hstack
    rcases stack with _ | ⟨br, rest⟩
    · constructor
      · intro _ br hbr
        exact absurd hbr (by simp)
      · intro _
        rfl
    · have hInvbr := hstack br (List.mem_cons_self _ _)
      have spec := innerLoop_spec hwfc (cmps.length - br.i) br.i br.p br.z br.o []
        rfl hInvbr.hi hInvbr
      rcases hres : innerLoop cmps (cmps.length - br.i) br.i br.p br.z br.o []
        with _ | pushed
      · obtain ⟨v, hv, hns⟩ := spec.1 hres
        have heq : outerLoop cmps (fuel + 1) (br :: rest) = false := by
          rw [outerLoop, hres]
        rw [heq]
        constructor
        · intro hcontr
          exact absurd hcontr (by simp)
        · intro hall
          exact absurd (hall br (List.mem_cons_self _ _) v hv) hns
      · obtain ⟨pushed0, hpe, hinvp, hmeas, hcov, hback⟩ := spec.2 pushed hres
        rw [List.append_nil] at hpe
        subst hpe
        have heq : outerLoop cmps (fuel + 1) (br :: rest) =
            outerLoop cmps fuel (pushed ++ rest) := by
          rw [outerLoop, hres]
        have hmnew : stackM (pushed ++ rest) < fuel := by
          rw [stackM_append]
          rw [stackM_cons] at hm
          omega
        have hstacknew : ∀ br2 ∈ pushed ++ rest, BranchInv cmps n br2 := by
          intro br2 hbr2
          rcases List.mem_append.mp hbr2 with hmm | hmm
          · exact hinvp br2 hmm
          · exact hstack br2 (List.mem_cons_of_mem _ hmm)
        rw [heq, ih (pushed ++ rest) hmnew hstacknew]
        constructor
        · intro hall br2 hbr2 w hw
          rcases List.mem_cons.mp hbr2 with rfl | hmm
          · rcases hcov w hw with hs | ⟨br3, hbr3, w3, hw3, heqr⟩
            · exact hs
            · rw [← heqr]
              exact hall br3 (List.mem_append_left _ hbr3) w3 hw3
          · exact hall br2 (List.mem_append_right _ hmm) w hw
        · intro hall br2 hbr2 w hw
          rcases List.mem_append.mp hbr2 with hmm | hmm
          · obtain ⟨v, hv, heqr⟩ := hback br2 hmm w hw
            rw [heqr]
            exact hall br (List.mem_cons_self _ _) v hv
          · exact hall br2 (List.mem_cons_of_mem _ hmm) w hw

/-- A nonempty well-formed network reaches wire index at least `1`. -/
theorem pyMaxInputFold_pos {cs : Network} (hne : cs ≠ []) (hwf : WFNet cs) :
    1 ≤ pyMaxInputFold cs := by
  rcases cs with _ | ⟨c, rest⟩
  · exact absurd rfl hne
  · have h1 := mem_le_pyMaxInputFold (List.mem_cons_self c rest)
    have h2 := hwf c (List.mem_cons_self c rest)
    omega

/-- Completions of the all-unknown state are exactly the binary vectors. -/
theorem compl_replicate_iff {n : Nat} (w : List Nat) :
    Compl (List.replicate n 2) w ↔ w.length = n ∧ ∀ j, j < n → w.getD j 0 ≤ 1 := by
  have hget : ∀ j, j < n → (List.replicate n 2).getD j 0 = 2 := by
    intro j hj
    rw [List.getD_eq_getElem _ _ (by simpa using hj), List.getElem_replicate]
  constructor
  · intro h
    refine ⟨by simpa using h.1, fun j hj => ?_⟩
    exact (h.2 j (by simpa using hj)).1 (hget j hj)
  · intro h
    obtain ⟨h1, h2⟩ := h
    refine ⟨by simpa using h1, fun j hj => ?_⟩
    have hjn : j < n := by simpa using hj
    rw [hget j hjn]
    exact ⟨fun _ => h2 j hjn, fun hx => absurd rfl hx⟩

theorem ofBits_lt : ∀ (w : List Nat), (∀ j, j < w.length → w.getD j 0 ≤ 1) →
    ofBits w < 2 ^ w.length := by
  intro w
  induction w with
  | nil =>
    intro _
    simp [ofBits]
  | cons b t ih =>
    intro h
    have hb : b ≤ 1 := h 0 (by simp)
    have ht := ih (fun j hj => h (j + 1) (by simp; omega))
    have hlen : 2 ^ (b :: t).length = 2 * 2 ^ t.length := by
      rw [List.length_cons, Nat.pow_succ]
      ring
    rw [ofBits, hlen]
    omega

theorem bitsList_ofBits : ∀ (w : List Nat), (∀ j, j < w.length → w.getD j 0 ≤ 1) →
    bitsList w.length (ofBits w) = w := by
  intro w
  induction w with
  | nil =>
    intro _
    rfl
  | cons b t ih =>
    intro h
    have hb : b ≤ 1 := h 0 (by simp)
    have ht := ih (fun j hj => h (j + 1) (by simp; omega))
    have hlen : (b :: t).length = t.length + 1 := rfl
    rw [hlen, bitsList, ofBits]
    have h1 : (b + 2 * ofBits t) % 2 = b := by omega
    have h2 : (b + 2 * ofBits t) / 2 = ofBits t := by omega
    rw [h1, h2, ht]

/-- A bit vector is non-decreasing exactly when the integer's bit pattern is. -/
theorem sortedL_bitsList_iff {n x : Nat} :
    SortedL (bitsList n x) ↔ BinSorted n x := by
  constructor
  · intro h k hk j hjk htj
    have h2 := h j k hjk (by rw [bitsList_length]; omega)
    rw [bitsList_getD x (by omega), bitsList_getD x hk, htj] at h2
    by_cases hb : x.testBit k = true
    · exact hb
    · rw [Bool.not_eq_true] at hb
      rw [hb] at h2
      simp at h2
  · intro h j k hjk hk
    have hkn : k < n := by
      rw [bitsList_length] at hk
      omega
    rw [bitsList_getD x (by omega), bitsList_getD x hkn]
    by_cases hbj : x.testBit j = true
    · rw [h k hkn j hjk hbj, hbj]
    · rw [Bool.not_eq_true] at hbj
      rw [hbj]
      simp
/-- The reference execution on bit lists tracks `sort_binary_sequence`. -/
theorem runList_bitsList {n : Nat} :
    ∀ (cs : Network) (x : Nat), (∀ c ∈ cs, c.i1 < c.i2 ∧ c.i2 < n) → x < 2 ^ n →
      runList (cs.map (fun c => (c.i1, c.i2))) (bitsList n x) =
          bitsList n (sort_binary_sequence cs x) ∧
        sort_binary_sequence cs x < 2 ^ n := by
  intro cs
  induction cs with
  | nil => exact fun x _ hx => ⟨rfl, hx⟩
  | cons c rest ih =>
    intro x hb hx
    obtain ⟨hc1, hc2⟩ := hb c (List.mem_cons_self _ _)
    obtain ⟨hstep, hlt⟩ := applyCmp_bitsList hc1 hc2 hx
    have hcons : sort_binary_sequence (c :: rest) x =
        sort_binary_sequence rest (sbsStep c.i1 c.i2 x) := rfl
    have hrcons : runList ((c :: rest).map (fun c => (c.i1, c.i2))) (bitsList n x) =
        runList (rest.map (fun c => (c.i1, c.i2))) (applyCmp c.i1 c.i2 (bitsList n x)) := rfl
    rw [hrcons, hstep, hcons]
    exact ih (sbsStep c.i1 c.i2 x) (fun d hd => hb d (List.mem_cons_of_mem _ hd)) hlt

/-! ### Claims -/

/-- C8: `is_sorting_network` returns `false` (rather than raising an error)
on every network with zero comparators. -/
theorem is_sorting_network_empty_false : is_sorting_network [] = false := rfl

/-- C5: for every network and every input, `sort_binary_sequence` is exactly
the fold, over the comparators in execution order, of the compare-exchange
step that reads the bits at `lo` and `hi` and swaps them when
`bit lo > bit hi`; in particular for the network `"0:1,1:2,0:1"`, input
`0b101` gives `0b110` and input `0b111` gives `0b111`. -/
theorem sort_binary_sequence_eq_fold :
    (∀ (cs : Network) (s : Nat),
        sort_binary_sequence cs s =
          cs.foldl (fun r c => cexBitSpec c.i1 c.i2 r) s) ∧
    sort_binary_sequence [⟨0, 1⟩, ⟨1, 2⟩, ⟨0, 1⟩] 5 = 6 ∧
    sort_binary_sequence [⟨0, 1⟩, ⟨1, 2⟩, ⟨0, 1⟩] 7 = 7 := by
  refine ⟨fun cs s => ?_, by decide, by decide⟩
  induction cs generalizing s with
  | nil => rfl
  | cons c rest ih =>
    have hcons : sort_binary_sequence (c :: rest) s =
        sort_binary_sequence rest
          (if (s >>> c.i1) &&& 1 > (s >>> c.i2) &&& 1
            then s ^^^ ((1 <<< c.i1) ||| (1 <<< c.i2)) else s) := rfl
    rw [hcons, ih, List.foldl_cons, sort_binary_step]

/-- C9: none of the verification, sorting or scheduling methods mutates the
network object, and `sort_sequence` leaves its argument list unchanged
(each method mutates only copies: `list(sequence)`,
`self.comparators.copy()`). -/
theorem methods_do_not_mutate {α : Type} [LinearOrder α] :
    ∀ (net : ComparisonNetwork) (s : Nat) (seq : List α),
      (callSortBinary net s).2 = net ∧
      (callSortSequence net seq).2.1 = net ∧
      (callSortSequence net seq).2.2 = seq ∧
      (callIsSortingNetwork net).2 = net ∧
      (callGetOptimized net).2 = net :=
  fun net _ _ => ⟨rfl, rfl, rfl, rfl, rfl⟩

/-- C10 counterexample: the canonical display of the empty network is the
empty string — `__str__` never calls `get_max_input`, so it returns a
default rendering instead of failing with an empty-network error (the
repository's own test asserts `cn.__str__() == ""`). -/
theorem network_str_empty_no_error : network_str [] = "" := rfl

/-- C10 (amended): `get_max_input` fails with the empty-network error on a
network with zero comparators, while the canonical display returns the
empty string without error. -/
theorem get_max_input_empty_error :
    get_max_input [] = Except.error "Comparison network is empty" ∧
    network_str [] = "" := ⟨rfl, rfl⟩

/-- C3 counterexample: two networks whose comparator sequences are
permutations of each other (`"4:5,0:3,2:5,0:1"` against
`"2:5,0:1,4:5,0:3"`) on which the scheduler produces different canonical
orderings and different groupings. -/
theorem get_optimized_not_permutation_invariant :
    List.Perm
      [Comparator.mk 4 5, ⟨0, 3⟩, ⟨2, 5⟩, ⟨0, 1⟩]
      [Comparator.mk 2 5, ⟨0, 1⟩, ⟨4, 5⟩, ⟨0, 3⟩] ∧
    get_optimized_comparators [⟨4, 5⟩, ⟨0, 3⟩, ⟨2, 5⟩, ⟨0, 1⟩] ≠
      get_optimized_comparators [⟨2, 5⟩, ⟨0, 1⟩, ⟨4, 5⟩, ⟨0, 3⟩] ∧
    network_str [⟨4, 5⟩, ⟨0, 3⟩, ⟨2, 5⟩, ⟨0, 1⟩] ≠
      network_str [⟨2, 5⟩, ⟨0, 1⟩, ⟨4, 5⟩, ⟨0, 3⟩] := by
  refine ⟨by decide, by decide, by decide⟩

/-- C3 (amended): the scheduler is deterministic but not invariant under
arbitrary permutation of the comparator sequence; for the two input
orderings of `"2:5,0:1,4:5,0:3"` that the repository's test actually
checks, the canonical ordering and grouping coincide, rendering as
`"2:5,0:1\n0:3,4:5"`. -/
theorem get_optimized_tested_orderings_agree :
    get_optimized_comparators [⟨2, 5⟩, ⟨0, 1⟩, ⟨4, 5⟩, ⟨0, 3⟩] =
      get_optimized_comparators [⟨2, 5⟩, ⟨4, 5⟩, ⟨0, 1⟩, ⟨0, 3⟩] ∧
    network_str [⟨2, 5⟩, ⟨0, 1⟩, ⟨4, 5⟩, ⟨0, 3⟩] = "2:5,0:1\n0:3,4:5" ∧
    network_str [⟨2, 5⟩, ⟨4, 5⟩, ⟨0, 1⟩, ⟨0, 3⟩] = "2:5,0:1\n0:3,4:5" := by
  refine ⟨by decide, by decide, by decide⟩

/-- C6: for a network with at least one comparator, `sort_sequence` fails
with the length-mismatch error exactly when the input length differs from
the wire count `get_max_input() + 1`, and succeeds (no error of any kind)
when the lengths match. -/
theorem sort_sequence_error_iff {α : Type} [LinearOrder α] (cs : Network)
    (hne : cs ≠ []) (hwf : WFNet cs) (items : List α) :
    (sort_sequence cs items =
        Except.error "Sequence length does not match number of inputs in the comparison network"
      ↔ items.length ≠ pyMaxInputFold cs + 1) ∧
    (items.length = pyMaxInputFold cs + 1 →
      ∃ r, sort_sequence cs items = Except.ok r) := by
  have hmax : get_max_input cs = .ok (pyMaxInputFold cs) := by
    rw [get_max_input, if_neg]
    simpa using hne
  rw [sort_sequence, hmax]
  dsimp only
  by_cases hlen : items.length = pyMaxInputFold cs + 1
  · obtain ⟨r, hr, _⟩ := sortFold_some cs items (fun c hc => by
      have h2 := mem_le_pyMaxInputFold hc
      have h1 := hwf c hc
      omega)
    rw [if_neg (by omega), hr]
    exact ⟨by simp [hlen], fun _ => ⟨r, rfl⟩⟩
  · rw [if_pos hlen]
    exact ⟨by simp [hlen], fun h => absurd h hlen⟩

/-- C6 witness: the theorem instantiated at the network `"0:1"` and the
three-element input `[3, 1, 2]` (wire count 2, so a mismatch). -/
theorem sort_sequence_error_iff_witness :
    (sort_sequence [Comparator.mk 0 1] [(3 : Nat), 1, 2] =
        Except.error "Sequence length does not match number of inputs in the comparison network"
      ↔ [(3 : Nat), 1, 2].length ≠ pyMaxInputFold [Comparator.mk 0 1] + 1) ∧
    ([(3 : Nat), 1, 2].length = pyMaxInputFold [Comparator.mk 0 1] + 1 →
      ∃ r, sort_sequence [Comparator.mk 0 1] [(3 : Nat), 1, 2] = Except.ok r) :=
  sort_sequence_error_iff [Comparator.mk 0 1] (by decide)
    (by intro c hc; rcases List.mem_singleton.mp hc with rfl; decide) [(3 : Nat), 1, 2]

/-- C7: `from_string` fails exactly when the stripped string does not split
on `":"` into two numeric parts with distinct values; a successful parse is
normalized with `i1 < i2` whatever the order in the string, `"2:0"` parses
to `Comparator(0,2)` which re-serializes as `"0:2"`, and direct construction
with two equal positions fails. -/
theorem from_string_spec :
    (∀ s : String,
      (∃ e, Comparator.from_string s = Except.error e) ↔
        ¬ ∃ a b, Comparator.pySplitColon (Comparator.pyStrip s).data = [a, b] ∧
          Comparator.pyIsNumeric a = true ∧ Comparator.pyIsNumeric b = true ∧
          Comparator.pyInt a ≠ Comparator.pyInt b) ∧
    (∀ (s : String) (c : Comparator),
      Comparator.from_string s = Except.ok c → c.i1 < c.i2) ∧
    Comparator.from_string "2:0" = Except.ok ⟨0, 2⟩ ∧
    Comparator.str ⟨0, 2⟩ = "0:2" ∧
    (∀ i : Nat, ∃ e, Comparator.init i i = Except.error e) := by
  refine ⟨fun s => ?_, fun s c h => ?_, by decide, by decide,
    fun i => (init_error_iff i i).mpr rfl⟩
  · rw [Comparator.from_string]
    rcases hl : Comparator.pySplitColon (Comparator.pyStrip s).data with _ | ⟨a, _ | ⟨b, rest⟩⟩
    · simp [hl]
    · simp [hl]
    · rcases rest with _ | ⟨x, rest⟩
      · simp only [hl]
        by_cases hna : Comparator.pyIsNumeric a
        · by_cases hnb : Comparator.pyIsNumeric b
          · rw [if_pos (by rw [hna, hnb]; rfl)]
            rw [init_error_iff]
            constructor
            · rintro hv ⟨a2, b2, heq, _, _, hne⟩
              obtain ⟨rfl, rfl⟩ : a = a2 ∧ b = b2 := by
                have h1 := List.head_eq_of_cons_eq heq
                have h2 := List.head_eq_of_cons_eq (List.tail_eq_of_cons_eq heq)
                exact ⟨h1, h2⟩
              exact hne hv
            · intro hno
              by_contra hv
              exact hno ⟨a, b, rfl, hna, hnb, hv⟩
          · rw [if_neg (by simp [hnb])]
            constructor
            · rintro - ⟨a2, b2, heq, _, hb2, -⟩
              obtain ⟨rfl, rfl⟩ : a = a2 ∧ b = b2 := by
                have h1 := List.head_eq_of_cons_eq heq
                have h2 := List.head_eq_of_cons_eq (List.tail_eq_of_cons_eq heq)
                exact ⟨h1, h2⟩
              exact hnb hb2
            · exact fun _ => ⟨_, rfl⟩
        · rw [if_neg (by simp [hna])]
          constructor
          · rintro - ⟨a2, b2, heq, ha2, -, -⟩
            obtain ⟨rfl, rfl⟩ : a = a2 ∧ b = b2 := by
              have h1 := List.head_eq_of_cons_eq heq
              have h2 := List.head_eq_of_cons_eq (List.tail_eq_of_cons_eq heq)
              exact ⟨h1, h2⟩
            exact hna ha2
          · exact fun _ => ⟨_, rfl⟩
      · simp [hl]
  · rw [Comparator.from_string] at h
    split at h
    · split at h
      · exact init_ok_lt h
      · simp at h
    · simp at h

/-- C7 witness: parsing `"2:0"` succeeds, is normalized, and the error
characterization holds at the concrete strings `"2:0"` and `"1:1"`. -/
theorem from_string_spec_witness :
    ((∃ e, Comparator.from_string "1:1" = Except.error e) ↔
      ¬ ∃ a b, Comparator.pySplitColon (Comparator.pyStrip "1:1").data = [a, b] ∧
        Comparator.pyIsNumeric a = true ∧ Comparator.pyIsNumeric b = true ∧
        Comparator.pyInt a ≠ Comparator.pyInt b) ∧
    (⟨0, 2⟩ : Comparator).i1 < (⟨0, 2⟩ : Comparator).i2 :=
  ⟨from_string_spec.1 "1:1", from_string_spec.2.1 "2:0" ⟨0, 2⟩ (by decide)⟩

/-- C4: on any binary input below `2 ^ n` (with `n` the wire count of a
nonempty network), the integer semantics and the list semantics agree: the
bit list of `sort_binary_sequence s` is exactly what `sort_sequence` returns
on the bit list of `s`; consequently `sort_binary_sequence` permutes the
bits of its input. -/
theorem sort_binary_matches_sort_sequence (cs : Network) (hne : cs ≠ [])
    (hwf : WFNet cs) (s : Nat) (hs : s < 2 ^ (pyMaxInputFold cs + 1)) :
    sort_sequence cs (bitsList (pyMaxInputFold cs + 1) s) =
      Except.ok (bitsList (pyMaxInputFold cs + 1) (sort_binary_sequence cs s)) ∧
    (bitsList (pyMaxInputFold cs + 1) (sort_binary_sequence cs s)).Perm
      (bitsList (pyMaxInputFold cs + 1) s) := by
  have hbounds : ∀ c ∈ cs, c.i1 < c.i2 ∧ c.i2 < pyMaxInputFold cs + 1 := fun c hc =>
    ⟨hwf c hc, by have := mem_le_pyMaxInputFold hc; omega⟩
  have hmax : get_max_input cs = .ok (pyMaxInputFold cs) := by
    rw [get_max_input, if_neg]
    simpa using hne
  obtain ⟨hfold, _⟩ := foldlM_cex_bits cs s hbounds hs
  rw [sort_sequence, hmax]
  dsimp only
  rw [if_neg (by rw [bitsList_length]; omega), hfold]
  exact ⟨rfl, sbs_bits_perm cs s hbounds hs⟩

/-- C4 witness: the theorem instantiated at the network `"0:1"` and the
binary input `0b01`. -/
theorem sort_binary_matches_sort_sequence_witness :
    sort_sequence [Comparator.mk 0 1] (bitsList (pyMaxInputFold [Comparator.mk 0 1] + 1) 1) =
      Except.ok (bitsList (pyMaxInputFold [Comparator.mk 0 1] + 1)
        (sort_binary_sequence [Comparator.mk 0 1] 1)) ∧
    (bitsList (pyMaxInputFold [Comparator.mk 0 1] + 1)
        (sort_binary_sequence [Comparator.mk 0 1] 1)).Perm
      (bitsList (pyMaxInputFold [Comparator.mk 0 1] + 1) 1) :=
  sort_binary_matches_sort_sequence [Comparator.mk 0 1] (by decide)
    (by intro c hc; rcases List.mem_singleton.mp hc with rfl; decide) 1 (by decide)

/-- C2: the scheduler's output is a permutation of the network's comparator
sequence, and any two comparators that share a wire position appear in the
output in the same relative order (with the same multiplicities) as in the
network's execution order. -/
theorem get_optimized_perm_and_conflict_order (cs : Network) :
    (get_optimized_comparators cs).Perm cs ∧
    ∀ c d : Comparator, c.has_same_input d = true →
      (get_optimized_comparators cs).filter (fun x => x == c || x == d) =
        cs.filter (fun x => x == c || x == d) := by
  constructor
  · exact (getOptimizedLoop_spec (fun _ => false) (by simp) cs.length cs (le_refl _)).1
  · intro c d hcd
    apply (getOptimizedLoop_spec (fun x => x == c || x == d) ?_ cs.length cs (le_refl _)).2
    intro e f he hf
    have he2 : e = c ∨ e = d := by simpa using he
    have hf2 : f = c ∨ f = d := by simpa using hf
    rcases he2 with rfl | rfl <;> rcases hf2 with rfl | rfl <;>
      first
        | exact has_same_input_self _
        | exact hcd
        | (rw [has_same_input_comm]; exact hcd)

/-- C2 witness: the permutation and conflict-order properties at the
network `"2:5,0:1,4:5,0:3"` and the conflicting pair `2:5`, `4:5`. -/
theorem get_optimized_perm_and_conflict_order_witness :
    (get_optimized_comparators [⟨2, 5⟩, ⟨0, 1⟩, ⟨4, 5⟩, ⟨0, 3⟩]).Perm
      [Comparator.mk 2 5, ⟨0, 1⟩, ⟨4, 5⟩, ⟨0, 3⟩] ∧
    (get_optimized_comparators [⟨2, 5⟩, ⟨0, 1⟩, ⟨4, 5⟩, ⟨0, 3⟩]).filter
        (fun x => x == Comparator.mk 2 5 || x == Comparator.mk 4 5) =
      [Comparator.mk 2 5, ⟨0, 1⟩, ⟨4, 5⟩, ⟨0, 3⟩].filter
        (fun x => x == Comparator.mk 2 5 || x == Comparator.mk 4 5) :=
  ⟨(get_optimized_perm_and_conflict_order _).1,
    (get_optimized_perm_and_conflict_order _).2 ⟨2, 5⟩ ⟨4, 5⟩ (by decide)⟩

/-- C1: for every well-formed network with at least one comparator and
`n = get_max_input() + 1` wires, `is_sorting_network` returns `True` exactly
when `sort_binary_sequence` maps every integer `s < 2 ^ n` to a
non-decreasing binary pattern (every `1` bit above every `0` bit): the
ternary branch-and-bound search is equivalent to the naive zero-one
enumeration, with no false positives or negatives. -/
theorem is_sorting_network_iff_zero_one (cs : Network) (hne : cs ≠ []) (hwf : WFNet cs) :
    is_sorting_network cs = true ↔
      ∀ s, s < 2 ^ (pyMaxInputFold cs + 1) →
        BinSorted (pyMaxInputFold cs + 1) (sort_binary_sequence cs s) := by
  have hN1 : 1 ≤ pyMaxInputFold cs := pyMaxInputFold_pos hne hwf
  have hwfc : ∀ ab ∈ cs.map (fun c => (c.i1, c.i2)),
      ab.1 < ab.2 ∧ ab.2 < pyMaxInputFold cs + 1 := by
    intro ab hab
    obtain ⟨c, hc, rfl⟩ := List.mem_map.mp hab
    exact ⟨hwf c hc, by have := mem_le_pyMaxInputFold hc; omega⟩
  have hbounds : ∀ c ∈ cs, c.i1 < c.i2 ∧ c.i2 < pyMaxInputFold cs + 1 := fun c hc =>
    ⟨hwf c hc, by have := mem_le_pyMaxInputFold hc; omega⟩
  have hget : ∀ j, j < pyMaxInputFold cs + 1 →
      (List.replicate (pyMaxInputFold cs + 1) 2).getD j 0 = 2 := by
    intro j hj
    rw [List.getD_eq_getElem _ _ (by simpa using hj), List.getElem_replicate]
  have hInv0 : BranchInv (cs.map (fun c => (c.i1, c.i2))) (pyMaxInputFold cs + 1)
      ⟨0, List.replicate (pyMaxInputFold cs + 1) 2, 0, pyMaxInputFold cs + 1 - 1⟩ := by
    have hL : (List.replicate (pyMaxInputFold cs + 1) 2).length = pyMaxInputFold cs + 1 := by
      simp
    have hV : ∀ j, j < pyMaxInputFold cs + 1 →
        (List.replicate (pyMaxInputFold cs + 1) 2).getD j 0 ≤ 2 := fun j hj => by
      rw [hget j hj]
    have hZ : ∀ j, j < 0 → (List.replicate (pyMaxInputFold cs + 1) 2).getD j 0 = 0 :=
      fun j hj => absurd hj (by omega)
    have hO : ∀ j, pyMaxInputFold cs + 1 - 1 < j → j < pyMaxInputFold cs + 1 →
        (List.replicate (pyMaxInputFold cs + 1) 2).getD j 0 = 1 :=
      fun j h1 h2 => absurd h1 (by omega)
    have hZO : 0 < pyMaxInputFold cs + 1 - 1 := by omega
    have hON : pyMaxInputFold cs + 1 - 1 < pyMaxInputFold cs + 1 := by omega
    have hLZ : (List.replicate (pyMaxInputFold cs + 1) 2).getD 0 0 ≠ 0 := by
      rw [hget 0 (by omega)]
      omega
    have hLO : (List.replicate (pyMaxInputFold cs + 1) 2).getD
        (pyMaxInputFold cs + 1 - 1) 0 ≠ 1 := by
      rw [hget _ (by omega)]
      omega
    have hI : 0 ≤ (cs.map (fun c => (c.i1, c.i2))).length := Nat.zero_le _
    exact ⟨hL, hV, hZ, hO, hZO, hON, hLZ, hLO, hI⟩
  have hm : stackM [⟨0, List.replicate (pyMaxInputFold cs + 1) 2, 0,
      pyMaxInputFold cs + 1 - 1⟩] < 2 ^ (pyMaxInputFold cs + 1) + 1 := by
    have h1 : stackM [(⟨0, List.replicate (pyMaxInputFold cs + 1) 2, 0,
        pyMaxInputFold cs + 1 - 1⟩ : Branch)] =
        2 ^ count2 (List.replicate (pyMaxInputFold cs + 1) 2) := by
      rw [stackM_cons, stackM_nil]
      rfl
    rw [h1, count2_replicate]
    omega
  have hstack0 : ∀ br ∈ [(⟨0, List.replicate (pyMaxInputFold cs + 1) 2, 0,
      pyMaxInputFold cs + 1 - 1⟩ : Branch)],
      BranchInv (cs.map (fun c => (c.i1, c.i2))) (pyMaxInputFold cs + 1) br := by
    intro br hbr
    rw [List.mem_singleton] at hbr
    subst hbr
    exact hInv0
  have hne2 : ¬ cs.length = 0 := by simpa using hne
  have hisnet : is_sorting_network cs =
      outerLoop (cs.map (fun c => (c.i1, c.i2))) (2 ^ (pyMaxInputFold cs + 1) + 1)
        [⟨0, List.replicate (pyMaxInputFold cs + 1) 2, 0, pyMaxInputFold cs + 1 - 1⟩] := by
    rw [is_sorting_network, if_neg hne2]
  rw [hisnet, outerLoop_spec hwfc (2 ^ (pyMaxInputFold cs + 1) + 1) _ hm hstack0]
  constructor
  · intro hall s hs
    have hbits : Compl (List.replicate (pyMaxInputFold cs + 1) 2)
        (bitsList (pyMaxInputFold cs + 1) s) := by
      rw [compl_replicate_iff]
      refine ⟨bitsList_length _ _, fun j hj => ?_⟩
      rw [bitsList_getD s hj]
      cases s.testBit j <;> simp
    have h1 := hall _ (List.mem_singleton_self _) (bitsList (pyMaxInputFold cs + 1) s) hbits
    have h2 : SortedL (runList (cs.map (fun c => (c.i1, c.i2)))
        (bitsList (pyMaxInputFold cs + 1) s)) := h1
    obtain ⟨hrun, hlt⟩ := runList_bitsList cs s hbounds hs
    rw [hrun] at h2
    exact sortedL_bitsList_iff.mp h2
  · intro hall br hbr w hw
    rw [List.mem_singleton] at hbr
    subst hbr
    have hw2 : Compl (List.replicate (pyMaxInputFold cs + 1) 2) w := hw
    rw [compl_replicate_iff] at hw2
    obtain ⟨hwlen, hwbin⟩ := hw2
    have hoflt : ofBits w < 2 ^ (pyMaxInputFold cs + 1) := by
      have h3 := ofBits_lt w (fun j hj => hwbin j (by omega))
      rwa [hwlen] at h3
    have hwbits : w = bitsList (pyMaxInputFold cs + 1) (ofBits w) := by
      have h3 := bitsList_ofBits w (fun j hj => hwbin j (by omega))
      rw [hwlen] at h3
      exact h3.symm
    obtain ⟨hrun, hlt⟩ := runList_bitsList cs (ofBits w) hbounds hoflt
    show SortedL (runList (cs.map (fun c => (c.i1, c.i2))) w)
    rw [hwbits, hrun]
    exact sortedL_bitsList_iff.mpr (hall (ofBits w) hoflt)

/-- C1 witness: the single-comparator network `0:1` on two wires is reported
a sorting network, by the right-to-left direction checked over all four
binary inputs. -/
theorem is_sorting_network_iff_zero_one_witness :
    is_sorting_network [Comparator.mk 0 1] = true :=
  (is_sorting_network_iff_zero_one [Comparator.mk 0 1] (by decide)
    (fun c hc => by
      rcases List.mem_singleton.mp hc with rfl
      decide)).mpr (by decide)

end SortingNetworkPy
